import Mathlib

/-!
Verification of the BPE subsystem of the `wvec` repository.

The Rust sources under `src/bpe/` are shallowly embedded:
* `types.rs`   — `BpeTokenId`, `BpePair`, special-token constants.
* `vocab.rs`   — `Vocabulary` with its bidirectional token/id maps.
* `train.rs`   — `train` and its helpers.
* `encode.rs`  — `encode` and its per-rule rewrite.
* `decode.rs`  — `decode`.
* `io.rs`      — the binary serializer, modelled at the byte level.

Modelling conventions:
* `BpeTokenId` is `u32` in the source; it is embedded as `Nat`.  The only
  place where the `u32` width is observable is the serializer, where every
  `as u32` cast is modelled by an explicit `% 2^32` in `u32Bytes`.
* Rust's `HashMap` is embedded as an association list.  `HashMap` iteration
  order is unspecified in Rust; the embedding fixes first-insertion order,
  which is one admissible order.  `entry().or_insert(0) += f` becomes `bump`.
* Rust's `String` is UTF-8 validated, i.e. a sequence of Unicode scalar
  values; Lean's `String` (a list of `Char`) matches it exactly.
  `str::is_empty` (byte length zero) is modelled as `s.data.isEmpty`,
  which is equivalent for valid strings.
-/

namespace Wvec

/-- From `types.rs`: a merge rule `{left, right, id}` — the adjacent pair
`(left, right)` merges into the single token `id`. -/
structure BpePair where
  left : Nat
  right : Nat
  id : Nat
deriving DecidableEq, Repr

/-- From `types.rs`: `UNK_ID = 0`. -/
def UNK_ID : Nat := 0

/-- From `types.rs`: `UNK_TOKEN = "[UNK]"`. -/
def UNK_TOKEN : String := "[UNK]"

/-- From `types.rs`: `PAD_TOKEN = "[PAD]"`. -/
def PAD_TOKEN : String := "[PAD]"

/-- From `types.rs`: `BOS_TOKEN = "[BOS]"`. -/
def BOS_TOKEN : String := "[BOS]"

/-- From `types.rs`: `EOS_TOKEN = "[EOS]"`. -/
def EOS_TOKEN : String := "[EOS]"

/-- Lookup in an association list embedding a Rust `HashMap<String, u32>`
(read side of `self.token_to_id.get(&token)`). -/
def lookupStr : List (String × Nat) → String → Option Nat
  | [], _ => none
  | (k, v) :: rest, t => if t = k then some v else lookupStr rest t

/-- From `vocab.rs`: the `Vocabulary` struct.  `token_to_id` is the
`HashMap<String, BpeTokenId>` (as an association list), `id_to_token` the
dense `Vec<String>`, `pairs` the learned merge rules in priority order. -/
structure Vocabulary where
  token_to_id : List (String × Nat)
  id_to_token : List String
  pairs : List BpePair
deriving DecidableEq, Repr

/-- Modelled from the spec: `Vocabulary::empty`, the constructor used by
`io.rs` `load` (`let mut vocab = Vocabulary::empty();`) but missing from
`vocab.rs`.  Per the spec, `load` "reconstructs a Vocabulary by replaying
`add_token` for every stored token (in id order, so ids are reproduced
exactly)", which requires a vocabulary with no tokens and no rules at all. -/
def Vocabulary.emptyVocab : Vocabulary :=
  { token_to_id := [], id_to_token := [], pairs := [] }

/-- From `vocab.rs` `len`: number of tokens. -/
def Vocabulary.len (v : Vocabulary) : Nat :=
  v.id_to_token.length

/-- From `vocab.rs` `add_token`: if the token is already registered return its
existing id, else append it at the next sequential id.  Returns the updated
vocabulary together with the id (the Rust method mutates `self`). -/
def Vocabulary.add_token (v : Vocabulary) (token : String) : Vocabulary × Nat :=
  match lookupStr v.token_to_id token with
  | some id => (v, id)
  | none =>
    let id := v.id_to_token.length
    ({ token_to_id := (token, id) :: v.token_to_id,
       id_to_token := v.id_to_token ++ [token],
       pairs := v.pairs }, id)

/-- From `vocab.rs` `new`: a vocabulary holding exactly the four special
tokens, registered through `add_token` in the fixed order UNK, PAD, BOS, EOS. -/
def Vocabulary.new : Vocabulary :=
  (((((Vocabulary.emptyVocab.add_token UNK_TOKEN).1.add_token PAD_TOKEN).1.add_token
      BOS_TOKEN).1.add_token EOS_TOKEN).1)

/-- From `vocab.rs` `get_id`: total lookup, `UNK_ID` on absence. -/
def Vocabulary.get_id (v : Vocabulary) (token : String) : Nat :=
  (lookupStr v.token_to_id token).getD UNK_ID

/-- From `vocab.rs` `get_id_opt`: lookup distinguishing absence. -/
def Vocabulary.get_id_opt (v : Vocabulary) (token : String) : Option Nat :=
  lookupStr v.token_to_id token

/-- From `vocab.rs` `get_token`: `id_to_token.get(id)`. -/
def Vocabulary.get_token (v : Vocabulary) (id : Nat) : Option String :=
  v.id_to_token[id]?

/-- From `vocab.rs` `add_pair`: append a merge rule. -/
def Vocabulary.add_pair (v : Vocabulary) (left right id : Nat) : Vocabulary :=
  { v with pairs := v.pairs ++ [⟨left, right, id⟩] }

/-- From `vocab.rs` `pairs_count`. -/
def Vocabulary.pairs_count (v : Vocabulary) : Nat :=
  v.pairs.length

/-- From `vocab.rs` `contains`. -/
def Vocabulary.contains (v : Vocabulary) (token : String) : Bool :=
  (lookupStr v.token_to_id token).isSome

/-- From `decode.rs` `decode`: append each id's token text, or the literal
`"[UNK]"` when the id is unregistered. -/
def decode (v : Vocabulary) (ids : List Nat) : String :=
  ids.foldl (fun result id =>
    match v.get_token id with
    | some token => result ++ token
    | none => result ++ UNK_TOKEN) ""

/-- Scan state of `encode.rs` `apply_merge`: `cur` is `ids[i]`, the list is
`ids[i+1..]`.  On a match `ids[i]` becomes `merged_id` and `i` does not
advance (the fresh symbol is compared with the next element); on a mismatch
`ids[i]` is final and the scan moves right; when no `ids[i+1]` exists the
loop guard `i + 1 < ids.len()` fails and `ids[i]` is final. -/
def encode_apply_merge_go (left right merged_id : Nat) : Nat → List Nat → List Nat
  | cur, [] => [cur]
  | cur, b :: rest =>
    if cur = left ∧ b = right then encode_apply_merge_go left right merged_id merged_id rest
    else cur :: encode_apply_merge_go left right merged_id b rest

/-- From `encode.rs` `apply_merge`: in-place left-to-right scan replacing each
adjacent `(left, right)` by `merged_id` without advancing past a fresh merge. -/
def encode_apply_merge (left right merged_id : Nat) : List Nat → List Nat
  | [] => []
  | a :: rest => encode_apply_merge_go left right merged_id a rest

/-- Scan state of `train.rs` `apply_merge`, translated independently from
`train.rs` (the loop body there is textually the same as in `encode.rs`). -/
def train_apply_merge_go (left right merged_id : Nat) : Nat → List Nat → List Nat
  | cur, [] => [cur]
  | cur, b :: rest =>
    if cur = left ∧ b = right then train_apply_merge_go left right merged_id merged_id rest
    else cur :: train_apply_merge_go left right merged_id b rest

/-- From `train.rs` `apply_merge` (the body of `for seq in sequences`). -/
def train_apply_merge_seq (left right merged_id : Nat) : List Nat → List Nat
  | [] => []
  | a :: rest => train_apply_merge_go left right merged_id a rest

/-- From `train.rs` `apply_merge`: rewrite every working sequence in place. -/
def train_apply_merge (sequences : List (List Nat)) (left right merged_id : Nat) :
    List (List Nat) :=
  sequences.map (train_apply_merge_seq left right merged_id)

/-- From `encode.rs` `encode`: map each character to its id via `get_id`, then
apply every merge rule in learned priority order. -/
def encode (v : Vocabulary) (pretoken : String) : List Nat :=
  if pretoken.data.isEmpty then []
  else
    let ids := pretoken.data.map (fun ch => v.get_id (String.singleton ch))
    v.pairs.foldl (fun ids p => encode_apply_merge p.left p.right p.id ids) ids

/-- Increment step of `*freqs.entry(pretoken.to_string()).or_insert(0) += 1`
on the association-list embedding of `HashMap<String, u32>`. -/
def bumpStr (m : List (String × Nat)) (k : String) (f : Nat) : List (String × Nat) :=
  match m with
  | [] => [(k, f)]
  | (k', c) :: rest => if k' = k then (k', c + f) :: rest else (k', c) :: bumpStr rest k f

/-- From `train.rs` `count_pretoken_freqs`: count each distinct non-empty
pretoken. -/
def count_pretoken_freqs (pretokens : List String) : List (String × Nat) :=
  pretokens.foldl (fun freqs p => if p.data.isEmpty then freqs else bumpStr freqs p 1) []

/-- The stateful `pretoken.chars().map(|ch| vocab.add_token(ch.to_string()))`
from `train.rs` `init_char_sequences`. -/
def addChars : Vocabulary → List Char → Vocabulary × List Nat
  | v, [] => (v, [])
  | v, c :: cs =>
    let r := v.add_token (String.singleton c)
    let r2 := addChars r.1 cs
    (r2.1, r.2 :: r2.2)

/-- Loop body of `train.rs` `init_char_sequences`: register one pretoken's
characters and, unless its id sequence is empty, push the sequence and its
frequency. -/
def init_step (acc : Vocabulary × List (List Nat) × List Nat) (e : String × Nat) :
    Vocabulary × List (List Nat) × List Nat :=
  let r := addChars acc.1 e.1.data
  if r.2.isEmpty then (r.1, acc.2.1, acc.2.2)
  else (r.1, acc.2.1 ++ [r.2], acc.2.2 ++ [e.2])

/-- From `train.rs` `init_char_sequences`: one id sequence per distinct
pretoken (skipping empty ones), plus the parallel frequency list. -/
def init_char_sequences (pretoken_freqs : List (String × Nat)) (v : Vocabulary) :
    Vocabulary × List (List Nat) × List Nat :=
  pretoken_freqs.foldl init_step (v, [], [])

/-- Lookup in the association-list embedding of
`HashMap<(BpeTokenId, BpeTokenId), u64>`. -/
def lookupPair : List ((Nat × Nat) × Nat) → (Nat × Nat) → Option Nat
  | [], _ => none
  | (k, v) :: rest, t => if t = k then some v else lookupPair rest t

/-- Increment step of `*pair_counts.entry(pair).or_insert(0) += freq` on the
association-list embedding. -/
def bump (m : List ((Nat × Nat) × Nat)) (k : Nat × Nat) (f : Nat) :
    List ((Nat × Nat) × Nat) :=
  match m with
  | [] => [(k, f)]
  | (k', c) :: rest => if k' = k then (k', c + f) :: rest else (k', c) :: bump rest k f

/-- The adjacent pairs `seq.windows(2)` of a sequence. -/
def seqPairs (seq : List Nat) : List (Nat × Nat) :=
  seq.zip seq.tail

/-- Inner loop of `count_pair_freqs`: accumulate `freq` for every adjacent
pair of one sequence. -/
def bumpList (m : List ((Nat × Nat) × Nat)) (ps : List (Nat × Nat)) (f : Nat) :
    List ((Nat × Nat) × Nat) :=
  ps.foldl (fun acc p => bump acc p f) m

/-- From `train.rs` `count_pair_freqs`: accumulate each sequence's frequency
into every adjacent pair inside it. -/
def count_pair_freqs (sequences : List (List Nat)) (freqs : List Nat) :
    List ((Nat × Nat) × Nat) :=
  (sequences.zip freqs).foldl (fun acc e => bumpList acc (seqPairs e.1) e.2) []

/-- From `train.rs` `find_most_frequent_pair`: `max_by_key` over the entries
(`max_by_key` returns the last maximum under iteration order).  The source
panics on an empty map; the embedding returns `(0, 0)` there — `train` never
reaches that case because it breaks first. -/
def find_most_frequent_pair (pair_counts : List ((Nat × Nat) × Nat)) : Nat × Nat :=
  match pair_counts with
  | [] => (0, 0)
  | e :: rest => (rest.foldl (fun best e2 => if best.2 ≤ e2.2 then e2 else best) e).1

/-- From `train.rs` `merge_tokens`: register the concatenation of the two
tokens' texts and record the merge rule.  The source `unwrap`s the two
`get_token` calls; the embedding uses `getD ""`, and `train` only calls this
with ids that are in range, where the two agree. -/
def merge_tokens (v : Vocabulary) (left right : Nat) : Vocabulary × Nat :=
  let left_str := (v.get_token left).getD ""
  let right_str := (v.get_token right).getD ""
  let r := v.add_token (left_str ++ right_str)
  (r.1.add_pair left right r.2, r.2)

/-- Total number of symbols across all working sequences (the decreasing
measure of the training loop). -/
def totalLen (sequences : List (List Nat)) : Nat :=
  (sequences.map List.length).sum

/-- Step 3 of `train.rs` `train`: the `while vocab.len() < target` loop,
with an explicit fuel parameter.  `train` supplies fuel `totalLen s + 1`,
which is proved sufficient (`trainLoop_fuel_stable`): every iteration that
does not break strictly shrinks `totalLen`. -/
def trainLoop : Nat → Vocabulary → List (List Nat) → List Nat → Nat → Vocabulary
  | 0, vocab, _, _, _ => vocab
  | fuel + 1, vocab, sequences, freqs, target =>
    if vocab.len < target then
      let pair_counts := count_pair_freqs sequences freqs
      if pair_counts.isEmpty then vocab
      else
        let lr := find_most_frequent_pair pair_counts
        let r := merge_tokens vocab lr.1 lr.2
        trainLoop fuel r.1 (train_apply_merge sequences lr.1 lr.2 r.2) freqs target
    else vocab

/-- From `train.rs` `train`: count pretoken frequencies, initialize
character-level sequences, then iteratively merge the most frequent pair. -/
def train (pretokens : List String) (target_max_vocab_size : Nat) : Vocabulary :=
  let vocab := Vocabulary.new
  let pretoken_freqs := count_pretoken_freqs pretokens
  let r := init_char_sequences pretoken_freqs vocab
  trainLoop (totalLen r.2.1 + 1) r.1 r.2.1 r.2.2 target_max_vocab_size

/-! ## Binary serialization (`io.rs`), modelled at the byte level

A file is a `List Nat` of byte values (each `< 256`).  `io::Error` values are
modelled by `LoadErr`; the four `InvalidData` cases of the source keep their
identity (distinct constructors carrying the same data as the formatted
messages), and failing `read_exact` calls surface as `eof`. -/

/-- Errors of `io.rs` `load`: `eof` is a failing `read_exact`
(`UnexpectedEof`); the other four are the distinct `InvalidData` errors
`"invalid magic bytes"`, `"unsupported version: {v}"`,
`"token too long: {len} bytes"` and the UTF-8 validation failure. -/
inductive LoadErr where
  | eof
  | invalidMagic
  | unsupportedVersion (version : Nat)
  | tokenTooLong (len : Nat)
  | invalidUtf8
deriving DecidableEq, Repr

deriving instance DecidableEq for Except

/-- UTF-8 encoding of one Unicode scalar value (Rust `str::as_bytes`). -/
def utf8EncodeChar (c : Char) : List Nat :=
  let n := c.toNat
  if n < 128 then [n]
  else if n < 2048 then [192 + n / 64, 128 + n % 64]
  else if n < 65536 then [224 + n / 4096, 128 + n / 64 % 64, 128 + n % 64]
  else [240 + n / 262144, 128 + n / 4096 % 64, 128 + n / 64 % 64, 128 + n % 64]

/-- UTF-8 byte serialization of a string. -/
def utf8Encode (s : String) : List Nat :=
  s.data.flatMap utf8EncodeChar

/-- Pop one byte off the stream. -/
def nextByte : List Nat → Option (Nat × List Nat)
  | [] => none
  | b :: rest => some (b, rest)

/-- Strict UTF-8 decoding of a single scalar value, Rust
`String::from_utf8` semantics: rejects stray continuation bytes, overlong
encodings (C0/C1, E0 80-9F, F0 80-8F), surrogates (ED A0-BF), values above
U+10FFFF (F4 90-, F5-FF) and truncated sequences. -/
def utf8DecodeChar1 (bytes : List Nat) : Option (Char × List Nat) :=
  (nextByte bytes).bind fun p =>
    if p.1 < 128 then some (Char.ofNat p.1, p.2)
    else if p.1 < 194 then none
    else if p.1 < 224 then
      (nextByte p.2).bind fun q =>
        if 128 ≤ q.1 ∧ q.1 < 192 then
          some (Char.ofNat ((p.1 - 192) * 64 + (q.1 - 128)), q.2)
        else none
    else if p.1 < 240 then
      (nextByte p.2).bind fun q =>
        (nextByte q.2).bind fun w =>
          if (if p.1 = 224 then 160 ≤ q.1 ∧ q.1 < 192
              else if p.1 = 237 then 128 ≤ q.1 ∧ q.1 < 160
              else 128 ≤ q.1 ∧ q.1 < 192) ∧ 128 ≤ w.1 ∧ w.1 < 192 then
            some (Char.ofNat ((p.1 - 224) * 4096 + (q.1 - 128) * 64 + (w.1 - 128)),
              w.2)
          else none
    else if p.1 < 245 then
      (nextByte p.2).bind fun q =>
        (nextByte q.2).bind fun w =>
          (nextByte w.2).bind fun x =>
            if (if p.1 = 240 then 144 ≤ q.1 ∧ q.1 < 192
                else if p.1 = 244 then 128 ≤ q.1 ∧ q.1 < 144
                else 128 ≤ q.1 ∧ q.1 < 192) ∧
                (128 ≤ w.1 ∧ w.1 < 192) ∧ 128 ≤ x.1 ∧ x.1 < 192 then
              some (Char.ofNat ((p.1 - 240) * 262144 + (q.1 - 128) * 4096 +
                (w.1 - 128) * 64 + (x.1 - 128)), x.2)
            else none
    else none

/-- Decoding loop with explicit fuel; each scalar consumes at least one
byte, so fuel = byte count always suffices (`utf8DecodeLoop_congr`). -/
def utf8DecodeLoop : Nat → List Nat → Option (List Char)
  | _, [] => some []
  | 0, _ :: _ => none
  | fuel + 1, b :: rest =>
    match utf8DecodeChar1 (b :: rest) with
    | none => none
    | some (c, rest2) => (utf8DecodeLoop fuel rest2).map (fun cs => c :: cs)

/-- Strict UTF-8 decoding and validation of a whole byte stream
(Rust `String::from_utf8`). -/
def utf8Decode (bytes : List Nat) : Option (List Char) :=
  utf8DecodeLoop bytes.length bytes

/-- `u32::to_le_bytes` of `n as u32` (the truncating cast made explicit). -/
def u32Bytes (n : Nat) : List Nat :=
  [n % 256, n / 256 % 256, n / 65536 % 256, n / 16777216 % 256]

/-- From `io.rs` `read_u32`: read four little-endian bytes. -/
def readU32 : List Nat → Option (Nat × List Nat)
  | b0 :: b1 :: b2 :: b3 :: rest =>
    some (b0 + b1 * 256 + b2 * 65536 + b3 * 16777216, rest)
  | _ => none

/-- From `io.rs` `write_string`: u32 byte length plus UTF-8 bytes. -/
def write_string (s : String) : List Nat :=
  u32Bytes (utf8Encode s).length ++ utf8Encode s

/-- From `io.rs` `read_string`: read the length, reject lengths over 8 MiB
before reading any token byte, then read and UTF-8-validate the bytes. -/
def read_string (bytes : List Nat) : Except LoadErr (String × List Nat) :=
  match readU32 bytes with
  | none => .error .eof
  | some (len, rest) =>
    if len > 8 * 1024 * 1024 then .error (.tokenTooLong len)
    else if rest.length < len then .error .eof
    else
      match utf8Decode (rest.take len) with
      | some cs => .ok (String.mk cs, rest.drop len)
      | none => .error .invalidUtf8

/-- The tokens section written by `save`: every token in id order. -/
def tokBytes (v : Vocabulary) : List Nat :=
  (List.range v.len).flatMap (fun id => write_string ((v.get_token id).getD ""))

/-- The merge-pairs section written by `save`: rules in priority order. -/
def pairBytes (v : Vocabulary) : List Nat :=
  v.pairs.flatMap (fun p => u32Bytes p.left ++ u32Bytes p.right ++ u32Bytes p.id)

/-- From `io.rs` `save`: magic, version 1, sizes, tokens in id order, pairs
in priority order.  Filesystem errors are outside the model: `save` is the
byte image it writes. -/
def save (v : Vocabulary) : List Nat :=
  [66, 80, 69, 0] ++ u32Bytes 1 ++ u32Bytes v.len ++ u32Bytes v.pairs_count ++
    (tokBytes v ++ pairBytes v)

/-- The token-reading loop of `io.rs` `load`: replay `add_token` for every
stored token. -/
def readTokens : Nat → Vocabulary → List Nat → Except LoadErr (Vocabulary × List Nat)
  | 0, v, bytes => .ok (v, bytes)
  | n + 1, v, bytes =>
    match read_string bytes with
    | .error e => .error e
    | .ok (tok, rest) => readTokens n (v.add_token tok).1 rest

/-- The pair-reading loop of `io.rs` `load`: replay `add_pair` for every
stored rule. -/
def readPairs : Nat → Vocabulary → List Nat → Except LoadErr (Vocabulary × List Nat)
  | 0, v, bytes => .ok (v, bytes)
  | n + 1, v, bytes =>
    match readU32 bytes with
    | none => .error .eof
    | some (left, rest1) =>
      match readU32 rest1 with
      | none => .error .eof
      | some (right, rest2) =>
        match readU32 rest2 with
        | none => .error .eof
        | some (id, rest3) => readPairs n (v.add_pair left right id) rest3

/-- From `io.rs` `load`: check magic `"BPE\0"` (= bytes 66,80,69,0) and
version, read the sizes, then replay tokens and pairs starting from
`Vocabulary::empty` (see `Vocabulary.emptyVocab`). -/
def load (bytes : List Nat) : Except LoadErr Vocabulary :=
  match bytes with
  | b0 :: b1 :: b2 :: b3 :: rest =>
    if b0 = 66 ∧ b1 = 80 ∧ b2 = 69 ∧ b3 = 0 then
      match readU32 rest with
      | none => .error .eof
      | some (version, rest1) =>
        if version ≠ 1 then .error (.unsupportedVersion version)
        else
          match readU32 rest1 with
          | none => .error .eof
          | some (vocab_size, rest2) =>
            match readU32 rest2 with
            | none => .error .eof
            | some (pairs_count, rest3) =>
              match readTokens vocab_size Vocabulary.emptyVocab rest3 with
              | .error e => .error e
              | .ok (v, rest4) =>
                match readPairs pairs_count v rest4 with
                | .error e => .error e
                | .ok (v2, _) => .ok v2
    else .error .invalidMagic
  | _ => .error .eof

/-! ## Basic lemmas -/

theorem apply_merge_go_eq (l r m : Nat) (bs : List Nat) : ∀ cur : Nat,
    encode_apply_merge_go l r m cur bs = train_apply_merge_go l r m cur bs := by
  induction bs with
  | nil => intro cur; rfl
  | cons b rest ih =>
    intro cur
    simp only [encode_apply_merge_go, train_apply_merge_go]
    by_cases h : cur = l ∧ b = r
    · simp [h, ih]
    · simp [h, ih]

theorem encode_apply_merge_nil (l r m : Nat) : encode_apply_merge l r m [] = [] := rfl

theorem encode_apply_merge_single (l r m x : Nat) :
    encode_apply_merge l r m [x] = [x] := rfl

theorem foldl_apply_merge_single (L : List BpePair) (x : Nat) :
    L.foldl (fun ids p => encode_apply_merge p.left p.right p.id ids) [x] = [x] := by
  induction L with
  | nil => rfl
  | cons p ps ih => simpa [encode_apply_merge, encode_apply_merge_go] using ih

theorem decode_append_one (v : Vocabulary) (ids : List Nat) (id : Nat) :
    decode v (ids ++ [id]) =
      (match v.get_token id with
       | some token => decode v ids ++ token
       | none => decode v ids ++ UNK_TOKEN) := by
  simp only [decode, List.foldl_append, List.foldl_cons, List.foldl_nil]

theorem get_token_none_of_len_le (v : Vocabulary) (id : Nat) (h : v.len ≤ id) :
    v.get_token id = none := by
  simp only [Vocabulary.get_token]
  exact List.getElem?_eq_none h

/-! ## C4: the two per-rule rewrites agree -/

/-- C4: the encoder's per-rule rewrite (`encode.rs` `apply_merge`) and the
trainer's per-rule rewrite (`train.rs` `apply_merge`) compute the same
function on every symbol sequence and merge rule; the trainer's whole-corpus
rewrite is exactly the element-wise application of the encoder's rewrite. -/
theorem encode_train_apply_merge_eq :
    ∀ (ids : List Nat) (left right merged_id : Nat),
      encode_apply_merge left right merged_id ids =
        train_apply_merge_seq left right merged_id ids ∧
      ∀ sequences : List (List Nat),
        train_apply_merge sequences left right merged_id =
          sequences.map (encode_apply_merge left right merged_id) := by
  have hseq : ∀ (ids : List Nat) (l r m : Nat),
      encode_apply_merge l r m ids = train_apply_merge_seq l r m ids := by
    intro ids l r m
    cases ids with
    | nil => rfl
    | cons a rest => exact apply_merge_go_eq l r m rest a
  intro ids l r m
  refine ⟨hseq ids l r m, ?_⟩
  intro sequences
  simp only [train_apply_merge]
  exact List.map_congr_left fun seq _ => (hseq seq l r m).symm

/-! ## C8: lookup misses degrade gracefully -/

/-- C8: lookup misses never raise an error.  `get_id` is total and returns
the UNKNOWN id 0 on absence; encoding a character with no registered token
yields `[0]`; decoding an id with no registered token appends the literal
`"[UNK]"`; every id `≥ len()` has no registered token. -/
theorem lookup_miss_graceful :
    (∀ (v : Vocabulary) (t : String), v.get_id_opt t = none → v.get_id t = UNK_ID) ∧
    (∀ (v : Vocabulary) (c : Char), v.get_id_opt (String.singleton c) = none →
      encode v (String.singleton c) = [UNK_ID]) ∧
    (∀ (v : Vocabulary) (ids : List Nat) (id : Nat), v.get_token id = none →
      decode v (ids ++ [id]) = decode v ids ++ "[UNK]") ∧
    (∀ (v : Vocabulary) (id : Nat), v.len ≤ id → v.get_token id = none) := by
  refine ⟨?_, ?_, ?_, get_token_none_of_len_le⟩
  · intro v t h
    simp [Vocabulary.get_id, Vocabulary.get_id_opt] at h ⊢
    simp [h, UNK_ID]
  · intro v c h
    have hid : v.get_id (String.singleton c) = UNK_ID := by
      simp [Vocabulary.get_id, Vocabulary.get_id_opt] at h ⊢
      simp [h, UNK_ID]
    have hdata : (String.singleton c).data = [c] := rfl
    simp only [encode, hdata, List.isEmpty_cons, List.map_cons, List.map_nil]
    rw [if_neg (by simp)]
    rw [hid]
    exact foldl_apply_merge_single v.pairs UNK_ID
  · intro v ids id h
    rw [decode_append_one, h]
    rfl

/-- Witness for C8: concrete lookup misses on the fresh vocabulary. -/
theorem lookup_miss_graceful_witness :
    Vocabulary.new.get_id "zzz" = UNK_ID ∧
    encode Vocabulary.new (String.singleton 'x') = [UNK_ID] ∧
    decode Vocabulary.new ([2] ++ [999]) = decode Vocabulary.new [2] ++ "[UNK]" ∧
    Vocabulary.new.get_token 999 = none :=
  ⟨lookup_miss_graceful.1 Vocabulary.new "zzz" (by decide),
   lookup_miss_graceful.2.1 Vocabulary.new 'x' (by decide),
   lookup_miss_graceful.2.2.1 Vocabulary.new [2] 999 (by decide),
   lookup_miss_graceful.2.2.2 Vocabulary.new 999 (by decide)⟩

/-! ## C3: load rejects malformed files -/

theorem readU32_u32Bytes (n : Nat) (rest : List Nat) :
    readU32 (u32Bytes n ++ rest) = some (n % 4294967296, rest) := by
  show readU32 (n % 256 :: n / 256 % 256 :: n / 65536 % 256 ::
    n / 16777216 % 256 :: rest) = _
  simp only [readU32]
  refine congrArg (fun x => some (x, rest)) ?_
  omega

theorem u32_roundtrip_lt (n : Nat) (rest : List Nat) (h : n < 4294967296) :
    readU32 (u32Bytes n ++ rest) = some (n, rest) := by
  rw [readU32_u32Bytes, Nat.mod_eq_of_lt h]

/-- C3: `load` rejects malformed input with the distinct invalid-data error
of each failure class and never constructs a vocabulary: bad magic, a
version field other than 1, a stored token length over 8 MiB (rejected
before the token bytes are read — the input after the length field is
irrelevant and the error propagates out of the token loop), and token bytes
failing UTF-8 validation. -/
theorem load_rejects_malformed :
    (∀ (b0 b1 b2 b3 : Nat) (rest : List Nat),
      ¬(b0 = 66 ∧ b1 = 80 ∧ b2 = 69 ∧ b3 = 0) →
      load (b0 :: b1 :: b2 :: b3 :: rest) = .error .invalidMagic) ∧
    (∀ (version : Nat) (rest : List Nat), version < 2 ^ 32 → version ≠ 1 →
      load ([66, 80, 69, 0] ++ (u32Bytes version ++ rest))
        = .error (.unsupportedVersion version)) ∧
    (∀ (bytes rest : List Nat) (len : Nat), readU32 bytes = some (len, rest) →
      8 * 1024 * 1024 < len → read_string bytes = .error (.tokenTooLong len)) ∧
    (∀ (n : Nat) (v : Vocabulary) (bytes : List Nat) (e : LoadErr),
      read_string bytes = .error e → readTokens (n + 1) v bytes = .error e) ∧
    (∀ (bytes rest : List Nat) (len : Nat), readU32 bytes = some (len, rest) →
      len ≤ 8 * 1024 * 1024 → len ≤ rest.length → utf8Decode (rest.take len) = none →
      read_string bytes = .error .invalidUtf8) := by
  refine ⟨?_, ?_, ?_, ?_, ?_⟩
  · intro b0 b1 b2 b3 rest hmag
    simp only [load]
    rw [if_neg hmag]
  · intro version rest h32 hne
    have h32' : version < 4294967296 := by
      have : (2 : Nat) ^ 32 = 4294967296 := by norm_num
      omega
    show load (66 :: 80 :: 69 :: 0 :: (u32Bytes version ++ rest)) = _
    simp only [load, u32_roundtrip_lt version rest h32']
    simp [hne]
  · intro bytes rest len h hlen
    simp only [read_string, h]
    rw [if_pos hlen]
  · intro n v bytes e h
    simp only [readTokens, h]
  · intro bytes rest len h hle hrest hdec
    simp only [read_string, h, hdec]
    rw [if_neg (Nat.not_lt.mpr hle), if_neg (Nat.not_lt.mpr hrest)]

/-- Witness for C3: each rejection exercised on a concrete malformed input. -/
theorem load_rejects_malformed_witness :
    load (0 :: 0 :: 0 :: 0 :: []) = .error .invalidMagic ∧
    load ([66, 80, 69, 0] ++ (u32Bytes 2 ++ [])) = .error (.unsupportedVersion 2) ∧
    read_string (u32Bytes 8388609 ++ []) = .error (.tokenTooLong 8388609) ∧
    readTokens 1 Vocabulary.emptyVocab [] = .error .eof ∧
    read_string (u32Bytes 1 ++ [255]) = .error .invalidUtf8 :=
  ⟨load_rejects_malformed.1 0 0 0 0 [] (by decide),
   load_rejects_malformed.2.1 2 [] (by norm_num) (by decide),
   load_rejects_malformed.2.2.1 (u32Bytes 8388609 ++ []) [] 8388609 (by decide)
     (by decide),
   load_rejects_malformed.2.2.2.1 0 Vocabulary.emptyVocab [] .eof (by decide),
   load_rejects_malformed.2.2.2.2 (u32Bytes 1 ++ [255]) [255] 1 (by decide)
     (by decide) (by decide) (by decide)⟩

/-! ## UTF-8 round trip (towards C2) -/

theorem nextByte_cons (b : Nat) (rest : List Nat) :
    nextByte (b :: rest) = some (b, rest) := rfl

theorem bind_next_some {A : Type} {r : List Nat} {f : Nat × List Nat → Option A}
    {a : A} (h : (nextByte r).bind f = some a) :
    ∃ b rest, r = b :: rest ∧ f (b, rest) = some a := by
  cases r with
  | nil => exact absurd h (by simp [nextByte])
  | cons x xs => exact ⟨x, xs, rfl, by simpa [nextByte] using h⟩

theorem ite_some_none_eq {P : Prop} [Decidable P] {A : Type} {a b : A}
    (h : (if P then some a else none) = some b) : a = b := by
  by_cases hp : P
  · rw [if_pos hp] at h
    exact Option.some.inj h
  · rw [if_neg hp] at h
    exact absurd h (by simp)

theorem utf8DecodeChar1_shrink (bytes : List Nat) (c : Char) (rest2 : List Nat)
    (h : utf8DecodeChar1 bytes = some (c, rest2)) : rest2.length < bytes.length := by
  rw [utf8DecodeChar1] at h
  obtain ⟨b0, r1, rfl, hA⟩ := bind_next_some h
  clear h
  dsimp only at hA
  by_cases h1 : b0 < 128
  · rw [if_pos h1] at hA
    have h9 : r1 = rest2 := congrArg Prod.snd (Option.some.inj hA)
    rw [← h9]
    simp
  · rw [if_neg h1] at hA
    by_cases h2 : b0 < 194
    · rw [if_pos h2] at hA
      exact absurd hA (by simp)
    · rw [if_neg h2] at hA
      by_cases h3 : b0 < 224
      · rw [if_pos h3] at hA
        obtain ⟨b1, r2, hr1, hB⟩ := bind_next_some hA
        subst hr1
        clear hA
        dsimp only at hB
        have h9 : r2 = rest2 := congrArg Prod.snd (ite_some_none_eq hB)
        rw [← h9]
        simp only [List.length_cons]
        omega
      · rw [if_neg h3] at hA
        by_cases h4 : b0 < 240
        · rw [if_pos h4] at hA
          obtain ⟨b1, r2, hr1, hB⟩ := bind_next_some hA
          subst hr1
          clear hA
          dsimp only at hB
          obtain ⟨b2, r3, hr2, hC⟩ := bind_next_some hB
          subst hr2
          clear hB
          dsimp only at hC
          have h9 : r3 = rest2 := congrArg Prod.snd (ite_some_none_eq hC)
          rw [← h9]
          simp only [List.length_cons]
          omega
        · rw [if_neg h4] at hA
          by_cases h5 : b0 < 245
          · rw [if_pos h5] at hA
            obtain ⟨b1, r2, hr1, hB⟩ := bind_next_some hA
            subst hr1
            clear hA
            dsimp only at hB
            obtain ⟨b2, r3, hr2, hC⟩ := bind_next_some hB
            subst hr2
            clear hB
            dsimp only at hC
            obtain ⟨b3, r4, hr3, hD⟩ := bind_next_some hC
            subst hr3
            clear hC
            dsimp only at hD
            have h9 : r4 = rest2 := congrArg Prod.snd (ite_some_none_eq hD)
            rw [← h9]
            simp only [List.length_cons]
            omega
          · rw [if_neg h5] at hA
            exact absurd hA (by simp)

theorem utf8DecodeChar1_encodeChar (c : Char) (rest : List Nat) :
    utf8DecodeChar1 (utf8EncodeChar c ++ rest) = some (c, rest) := by
  have hv : Nat.isValidChar c.toNat := c.valid
  have hofn : Char.ofNat c.toNat = c := Char.ofNat_toNat c
  rcases Nat.lt_or_ge c.toNat 128 with h1 | h1
  · have he : utf8EncodeChar c = [c.toNat] := by
      rw [utf8EncodeChar]
      simp only [if_pos h1]
    rw [he, List.cons_append, List.nil_append, utf8DecodeChar1, nextByte_cons,
      Option.some_bind, if_pos h1, hofn]
  · rcases Nat.lt_or_ge c.toNat 2048 with h2 | h2
    · have he : utf8EncodeChar c = [192 + c.toNat / 64, 128 + c.toNat % 64] := by
        rw [utf8EncodeChar]
        simp only [if_neg (Nat.not_lt.mpr h1), if_pos h2]
      rw [he, List.cons_append, List.cons_append, List.nil_append,
        utf8DecodeChar1, nextByte_cons, Option.some_bind]
      rw [if_neg (by omega), if_neg (by omega), if_pos (by omega)]
      rw [nextByte_cons, Option.some_bind, if_pos (by omega)]
      have hval : (192 + c.toNat / 64 - 192) * 64 + (128 + c.toNat % 64 - 128)
          = c.toNat := by omega
      rw [hval, hofn]
    · rcases Nat.lt_or_ge c.toNat 65536 with h3 | h3
      · have he : utf8EncodeChar c = [224 + c.toNat / 4096,
            128 + c.toNat / 64 % 64, 128 + c.toNat % 64] := by
          rw [utf8EncodeChar]
          simp only [if_neg (Nat.not_lt.mpr h1), if_neg (Nat.not_lt.mpr h2),
            if_pos h3]
        rw [he, List.cons_append, List.cons_append, List.cons_append,
          List.nil_append, utf8DecodeChar1, nextByte_cons, Option.some_bind]
        rw [if_neg (by omega), if_neg (by omega), if_neg (by omega),
          if_pos (by omega)]
        rw [nextByte_cons, Option.some_bind, nextByte_cons, Option.some_bind]
        have hcond : (if 224 + c.toNat / 4096 = 224
            then 160 ≤ 128 + c.toNat / 64 % 64 ∧ 128 + c.toNat / 64 % 64 < 192
            else if 224 + c.toNat / 4096 = 237
            then 128 ≤ 128 + c.toNat / 64 % 64 ∧ 128 + c.toNat / 64 % 64 < 160
            else 128 ≤ 128 + c.toNat / 64 % 64 ∧ 128 + c.toNat / 64 % 64 < 192) ∧
            128 ≤ 128 + c.toNat % 64 ∧ 128 + c.toNat % 64 < 192 := by
          refine ⟨?_, by omega, by omega⟩
          by_cases hb : 224 + c.toNat / 4096 = 224
          · rw [if_pos hb]
            omega
          · rw [if_neg hb]
            by_cases hb2 : 224 + c.toNat / 4096 = 237
            · rw [if_pos hb2]
              rcases hv with hv1 | hv2 <;> omega
            · rw [if_neg hb2]
              omega
        rw [if_pos hcond]
        have hval : (224 + c.toNat / 4096 - 224) * 4096 +
            (128 + c.toNat / 64 % 64 - 128) * 64 + (128 + c.toNat % 64 - 128)
            = c.toNat := by omega
        rw [hval, hofn]
      · have h4 : c.toNat < 1114112 := by
          rcases hv with hv1 | hv2
          · omega
          · exact hv2.2
        have he : utf8EncodeChar c = [240 + c.toNat / 262144,
            128 + c.toNat / 4096 % 64, 128 + c.toNat / 64 % 64,
            128 + c.toNat % 64] := by
          rw [utf8EncodeChar]
          simp only [if_neg (Nat.not_lt.mpr h1), if_neg (Nat.not_lt.mpr h2),
            if_neg (Nat.not_lt.mpr h3)]
        rw [he, List.cons_append, List.cons_append, List.cons_append,
          List.cons_append, List.nil_append, utf8DecodeChar1, nextByte_cons,
          Option.some_bind]
        rw [if_neg (by omega), if_neg (by omega), if_neg (by omega),
          if_neg (by omega), if_pos (by omega)]
        rw [nextByte_cons, Option.some_bind, nextByte_cons, Option.some_bind,
          nextByte_cons, Option.some_bind]
        have hcond : (if 240 + c.toNat / 262144 = 240
            then 144 ≤ 128 + c.toNat / 4096 % 64 ∧ 128 + c.toNat / 4096 % 64 < 192
            else if 240 + c.toNat / 262144 = 244
            then 128 ≤ 128 + c.toNat / 4096 % 64 ∧ 128 + c.toNat / 4096 % 64 < 144
            else 128 ≤ 128 + c.toNat / 4096 % 64 ∧ 128 + c.toNat / 4096 % 64 < 192) ∧
            (128 ≤ 128 + c.toNat / 64 % 64 ∧ 128 + c.toNat / 64 % 64 < 192) ∧
            128 ≤ 128 + c.toNat % 64 ∧ 128 + c.toNat % 64 < 192 := by
          refine ⟨?_, ⟨by omega, by omega⟩, by omega, by omega⟩
          by_cases hb : 240 + c.toNat / 262144 = 240
          · rw [if_pos hb]
            omega
          · rw [if_neg hb]
            by_cases hb2 : 240 + c.toNat / 262144 = 244
            · rw [if_pos hb2]
              omega
            · rw [if_neg hb2]
              omega
        rw [if_pos hcond]
        have hval : (240 + c.toNat / 262144 - 240) * 262144 +
            (128 + c.toNat / 4096 % 64 - 128) * 4096 +
            (128 + c.toNat / 64 % 64 - 128) * 64 + (128 + c.toNat % 64 - 128)
            = c.toNat := by omega
        rw [hval, hofn]

theorem utf8DecodeLoop_cons (fuel : Nat) (b : Nat) (rest : List Nat) :
    utf8DecodeLoop (fuel + 1) (b :: rest) =
      match utf8DecodeChar1 (b :: rest) with
      | none => none
      | some (c, rest2) => (utf8DecodeLoop fuel rest2).map (fun cs => c :: cs) := rfl

theorem utf8DecodeLoop_congr : ∀ (n : Nat) (bytes : List Nat) (f1 f2 : Nat),
    bytes.length ≤ n → bytes.length ≤ f1 → bytes.length ≤ f2 →
    utf8DecodeLoop f1 bytes = utf8DecodeLoop f2 bytes := by
  intro n
  induction n using Nat.strong_induction_on with
  | _ n ih =>
    intro bytes f1 f2 hn h1 h2
    cases bytes with
    | nil => cases f1 <;> cases f2 <;> rfl
    | cons b rest =>
      simp only [List.length_cons] at hn h1 h2
      cases f1 with
      | zero => omega
      | succ f1 =>
        cases f2 with
        | zero => omega
        | succ f2 =>
          rw [utf8DecodeLoop_cons, utf8DecodeLoop_cons]
          cases hd : utf8DecodeChar1 (b :: rest) with
          | none => rfl
          | some p =>
            obtain ⟨c, rest2⟩ := p
            have hlen := utf8DecodeChar1_shrink _ _ _ hd
            simp only [List.length_cons] at hlen
            dsimp only
            rw [ih rest2.length (by omega) rest2 f1 f2 (Nat.le_refl _)
              (by omega) (by omega)]

theorem utf8EncodeChar_ne_nil (c : Char) : utf8EncodeChar c ≠ [] := by
  rw [utf8EncodeChar]
  split
  · simp
  · split
    · simp
    · split <;> simp

theorem utf8Decode_encodeChar (c : Char) (rest : List Nat) :
    utf8Decode (utf8EncodeChar c ++ rest) = (utf8Decode rest).map (fun cs => c :: cs) := by
  obtain ⟨b, ebs, heb⟩ : ∃ b ebs, utf8EncodeChar c = b :: ebs := by
    cases h : utf8EncodeChar c with
    | nil => exact absurd h (utf8EncodeChar_ne_nil c)
    | cons x xs => exact ⟨x, xs, rfl⟩
  rw [utf8Decode, heb, List.cons_append, List.length_cons, utf8DecodeLoop_cons]
  have hkey : utf8DecodeChar1 (b :: (ebs ++ rest)) = some (c, rest) := by
    rw [← List.cons_append, ← heb]
    exact utf8DecodeChar1_encodeChar c rest
  rw [hkey]
  dsimp only
  rw [utf8DecodeLoop_congr (ebs ++ rest).length rest (ebs ++ rest).length
    rest.length (by simp) (by simp) (Nat.le_refl _)]
  rfl

theorem utf8Decode_encode_list : ∀ cs : List Char,
    utf8Decode (cs.flatMap utf8EncodeChar) = some cs := by
  intro cs
  induction cs with
  | nil => rfl
  | cons c cs ih =>
    rw [List.flatMap_cons, utf8Decode_encodeChar, ih]
    rfl

theorem utf8Decode_encode (s : String) : utf8Decode (utf8Encode s) = some s.data :=
  utf8Decode_encode_list s.data

/-! ## C9: degenerate corpora -/

theorem foldl_cpf_all_empty : ∀ (ps : List String) (acc : List (String × Nat)),
    (∀ p ∈ ps, p = "") →
    ps.foldl (fun freqs p => if p.data.isEmpty then freqs else bumpStr freqs p 1) acc
      = acc := by
  intro ps
  induction ps with
  | nil => intro acc _; rfl
  | cons q qs ih =>
    intro acc hq
    have hq0 : q = "" := hq q (by simp)
    have hqd : q.data.isEmpty = true := by rw [hq0]; rfl
    simp only [List.foldl_cons, hqd, if_true]
    exact ih acc fun p hp => hq p (List.mem_cons_of_mem _ hp)

theorem count_pretoken_freqs_all_empty (ps : List String) (h : ∀ p ∈ ps, p = "") :
    count_pretoken_freqs ps = [] :=
  foldl_cpf_all_empty ps [] h

theorem train_all_empty_eq_new (ps : List String) (t : Nat) (h : ∀ p ∈ ps, p = "") :
    train ps t = Vocabulary.new := by
  simp only [train, count_pretoken_freqs_all_empty ps h]
  by_cases ht : Vocabulary.new.len < t
  · simp [init_char_sequences, totalLen, trainLoop, count_pair_freqs, ht]
  · simp [init_char_sequences, totalLen, trainLoop, ht]

/-- C9: training on an empty pre-token sequence, or one containing only empty
strings, is not an error: the result has `len() = 4`, holds exactly the four
special tokens at ids 0–3, and records zero merge rules. -/
theorem train_degenerate_corpus (ps : List String) (t : Nat) (h : ∀ p ∈ ps, p = "") :
    (train ps t).len = 4 ∧
    (train ps t).get_token 0 = some "[UNK]" ∧
    (train ps t).get_token 1 = some "[PAD]" ∧
    (train ps t).get_token 2 = some "[BOS]" ∧
    (train ps t).get_token 3 = some "[EOS]" ∧
    (train ps t).pairs = [] := by
  rw [train_all_empty_eq_new ps t h]
  refine ⟨rfl, rfl, rfl, rfl, rfl, rfl⟩

/-- Witness for C9 at the concrete corpus `["", ""]` and target 100. -/
theorem train_degenerate_corpus_witness :
    (train ["", ""] 100).len = 4 ∧
    (train ["", ""] 100).get_token 0 = some "[UNK]" ∧
    (train ["", ""] 100).get_token 1 = some "[PAD]" ∧
    (train ["", ""] 100).get_token 2 = some "[BOS]" ∧
    (train ["", ""] 100).get_token 3 = some "[EOS]" ∧
    (train ["", ""] 100).pairs = [] :=
  train_degenerate_corpus ["", ""] 100 (by decide)

/-! ## C6: frequency accumulation picks the dominant pair -/

/-- C6: on the pre-token multiset `{"aab": 3, "aac": 1}` the initialization
produces working sequences `[[4,4,5],[4,4,6]]` (ids 4,5,6 = 'a','b','c') with
frequencies `[3,1]`; the accumulated pair counts are `(4,4) ↦ 4`,
`(4,5) ↦ 3`, `(4,6) ↦ 1`; the selected pair is `(4,4)` — the two `'a'`
character tokens — and the first recorded merge rule of the trained
vocabulary is `(4,4) → 7` with token 7 = `"aa"`.  Overlapping repeats count:
a sequence `[a,a,a]` of frequency `k` contributes `2*k` to pair `(a,a)`. -/
theorem train_picks_most_frequent_pair :
    init_char_sequences (count_pretoken_freqs ["aab", "aab", "aab", "aac"]) Vocabulary.new
      = ((init_char_sequences (count_pretoken_freqs ["aab", "aab", "aab", "aac"])
          Vocabulary.new).1, [[4, 4, 5], [4, 4, 6]], [3, 1]) ∧
    lookupPair (count_pair_freqs [[4, 4, 5], [4, 4, 6]] [3, 1]) (4, 4) = some 4 ∧
    lookupPair (count_pair_freqs [[4, 4, 5], [4, 4, 6]] [3, 1]) (4, 5) = some 3 ∧
    lookupPair (count_pair_freqs [[4, 4, 5], [4, 4, 6]] [3, 1]) (4, 6) = some 1 ∧
    find_most_frequent_pair (count_pair_freqs [[4, 4, 5], [4, 4, 6]] [3, 1]) = (4, 4) ∧
    (train ["aab", "aab", "aab", "aac"] 20).pairs.head? = some ⟨4, 4, 7⟩ ∧
    (train ["aab", "aab", "aab", "aac"] 20).get_token 4 = some "a" ∧
    (train ["aab", "aab", "aab", "aac"] 20).get_token 7 = some "aa" ∧
    ∀ a k : Nat, lookupPair (count_pair_freqs [[a, a, a]] [k]) (a, a) = some (2 * k) := by
  refine ⟨by decide, by decide, by decide, by decide, by decide, by decide, by decide,
    by decide, ?_⟩
  intro a k
  simp [count_pair_freqs, bumpList, seqPairs, bump, lookupPair, Nat.two_mul]

/-! ## Well-formedness of the bidirectional vocabulary maps -/

/-- The mutual-consistency invariant of `Vocabulary` (spec §3): the map keys
are unique, the two structures have the same size, every map entry points at
its own text in the dense array, and every in-range id round-trips through
`get_token` and `get_id_opt`. -/
def WellFormed (v : Vocabulary) : Prop :=
  (v.token_to_id.map Prod.fst).Nodup ∧
  v.token_to_id.length = v.id_to_token.length ∧
  (∀ e ∈ v.token_to_id, v.get_token e.2 = some e.1) ∧
  (∀ i, i < v.len → ((v.get_token i).bind v.get_id_opt) = some i)

theorem lookupStr_some_mem {m : List (String × Nat)} {t : String} {i : Nat}
    (h : lookupStr m t = some i) : (t, i) ∈ m := by
  induction m with
  | nil => simp [lookupStr] at h
  | cons e rest ih =>
    obtain ⟨k, j⟩ := e
    simp only [lookupStr] at h
    by_cases he : t = k
    · simp [he] at h
      simp [he, h]
    · simp [he] at h
      exact List.mem_cons_of_mem _ (ih h)

theorem lookupStr_none_not_key {m : List (String × Nat)} {t : String}
    (h : lookupStr m t = none) : t ∉ m.map Prod.fst := by
  induction m with
  | nil => simp
  | cons e rest ih =>
    obtain ⟨k, j⟩ := e
    simp only [lookupStr] at h
    by_cases he : t = k
    · simp [he] at h
    · simp [he] at h
      simpa [he] using ih h

theorem getElem?_some_lt {α : Type} {l : List α} {i : Nat} {a : α}
    (h : l[i]? = some a) : i < l.length := by
  by_contra hc
  push_neg at hc
  rw [List.getElem?_eq_none hc] at h
  exact Option.noConfusion h

theorem getElem?_append_lt {α : Type} {l1 l2 : List α} {i : Nat}
    (h : i < l1.length) : (l1 ++ l2)[i]? = l1[i]? := by
  rw [List.getElem?_append]
  simp [h]

/-- Components of `add_token` on an unregistered token. -/
theorem add_token_fresh (v : Vocabulary) (t : String)
    (h : v.get_id_opt t = none) :
    (v.add_token t).1.token_to_id = (t, v.id_to_token.length) :: v.token_to_id ∧
    (v.add_token t).1.id_to_token = v.id_to_token ++ [t] ∧
    (v.add_token t).1.pairs = v.pairs ∧
    (v.add_token t).2 = v.id_to_token.length := by
  simp only [Vocabulary.get_id_opt] at h
  simp [Vocabulary.add_token, h]

/-- `add_token` on a registered token is the identity, returning its id. -/
theorem add_token_found (v : Vocabulary) (t : String) (i : Nat)
    (h : v.get_id_opt t = some i) : v.add_token t = (v, i) := by
  simp only [Vocabulary.get_id_opt] at h
  simp [Vocabulary.add_token, h]

theorem get_token_fresh (v : Vocabulary) (t : String) (h : v.get_id_opt t = none)
    (i : Nat) :
    (v.add_token t).1.get_token i =
      if i < v.id_to_token.length then v.get_token i
      else if i = v.id_to_token.length then some t else none := by
  simp only [Vocabulary.get_token, (add_token_fresh v t h).2.1]
  by_cases hlt : i < v.id_to_token.length
  · rw [getElem?_append_lt hlt]
    simp [hlt]
  · by_cases he : i = v.id_to_token.length
    · subst he
      simp [List.getElem?_concat_length, hlt]
    · have hge : v.id_to_token.length + 1 ≤ i := by omega
      rw [List.getElem?_eq_none (by simpa using hge)]
      simp [hlt, he]

theorem get_id_opt_fresh (v : Vocabulary) (t : String) (h : v.get_id_opt t = none)
    (u : String) :
    (v.add_token t).1.get_id_opt u =
      if u = t then some v.id_to_token.length else v.get_id_opt u := by
  simp only [Vocabulary.get_id_opt, (add_token_fresh v t h).1, lookupStr]

/-- The vocabulary grows monotonically (spec §3 lifecycle): `w` extends `v`
when every registered token keeps its id and its text. -/
def Extends (v w : Vocabulary) : Prop :=
  v.len ≤ w.len ∧
  (∀ i t, v.get_token i = some t → w.get_token i = some t) ∧
  (∀ t i, v.get_id_opt t = some i → w.get_id_opt t = some i)

theorem Extends.rfl (v : Vocabulary) : Extends v v :=
  ⟨Nat.le_refl _, fun _ _ h => h, fun _ _ h => h⟩

theorem Extends.trans {u v w : Vocabulary} (h1 : Extends u v) (h2 : Extends v w) :
    Extends u w :=
  ⟨Nat.le_trans h1.1 h2.1,
   fun i t h => h2.2.1 i t (h1.2.1 i t h),
   fun t i h => h2.2.2 t i (h1.2.2 t i h)⟩

theorem len_fresh (v : Vocabulary) (t : String) (h : v.get_id_opt t = none) :
    (v.add_token t).1.len = v.len + 1 := by
  simp [Vocabulary.len, (add_token_fresh v t h).2.1]

theorem extends_add_token (v : Vocabulary) (t : String) :
    Extends v (v.add_token t).1 := by
  cases h : v.get_id_opt t with
  | some i => rw [add_token_found v t i h]; exact Extends.rfl v
  | none =>
    refine ⟨?_, ?_, ?_⟩
    · rw [len_fresh v t h]; omega
    · intro i u hu
      rw [get_token_fresh v t h]
      have : i < v.id_to_token.length := getElem?_some_lt hu
      simp [this, hu]
    · intro u i hu
      rw [get_id_opt_fresh v t h]
      by_cases he : u = t
      · rw [he] at hu; rw [hu] at h; exact Option.noConfusion h
      · simp [he, hu]

theorem extends_add_pair (v : Vocabulary) (l r i : Nat) :
    Extends v (v.add_pair l r i) :=
  ⟨Nat.le_refl _, fun _ _ h => h, fun _ _ h => h⟩

theorem add_pair_get_token (v : Vocabulary) (l r i j : Nat) :
    (v.add_pair l r i).get_token j = v.get_token j := rfl

theorem add_token_len_le (v : Vocabulary) (t : String) :
    (v.add_token t).1.len ≤ v.len + 1 := by
  cases h : v.get_id_opt t with
  | some i => rw [add_token_found v t i h]; exact Nat.le_succ _
  | none => rw [len_fresh v t h]

theorem add_token_pairs (v : Vocabulary) (t : String) :
    (v.add_token t).1.pairs = v.pairs := by
  cases h : v.get_id_opt t with
  | some i => rw [add_token_found v t i h]
  | none => exact (add_token_fresh v t h).2.2.1

/-- After `add_token`, the returned id maps to the token's text (requires the
consistency invariant when the token was already present). -/
theorem add_token_spec (v : Vocabulary) (t : String) (hv : WellFormed v) :
    (v.add_token t).1.get_token (v.add_token t).2 = some t ∧
    (v.add_token t).1.get_id_opt t = some (v.add_token t).2 ∧
    (v.add_token t).2 < (v.add_token t).1.len := by
  cases h : v.get_id_opt t with
  | some i =>
    rw [add_token_found v t i h]
    have hmem : (t, i) ∈ v.token_to_id := lookupStr_some_mem h
    have hg : v.get_token i = some t := hv.2.2.1 (t, i) hmem
    exact ⟨hg, h, getElem?_some_lt hg⟩
  | none =>
    rw [(add_token_fresh v t h).2.2.2, get_token_fresh v t h,
      get_id_opt_fresh v t h, len_fresh v t h]
    simp [Vocabulary.len]

instance (v : Vocabulary) : Decidable (WellFormed v) := by
  unfold WellFormed
  infer_instance

theorem WellFormed_new : WellFormed Vocabulary.new := by decide

theorem WellFormed_add_token (v : Vocabulary) (t : String) (hv : WellFormed v) :
    WellFormed (v.add_token t).1 := by
  cases h : v.get_id_opt t with
  | some i => rw [add_token_found v t i h]; exact hv
  | none =>
    obtain ⟨hnd, hlen, hent, hrt⟩ := hv
    obtain ⟨hm, hl, -, -⟩ := add_token_fresh v t h
    refine ⟨?_, ?_, ?_, ?_⟩
    · rw [hm]
      simpa using List.Nodup.cons (lookupStr_none_not_key h) hnd
    · rw [hm, hl]
      simp [hlen]
    · intro e he
      rw [hm] at he
      rcases List.mem_cons.mp he with he0 | he0
      · subst he0
        rw [get_token_fresh v t h]
        simp
      · have hold := hent e he0
        rw [get_token_fresh v t h]
        have : e.2 < v.id_to_token.length := getElem?_some_lt hold
        simp [this, hold]
    · intro i hi
      rw [len_fresh v t h] at hi
      by_cases hlt : i < v.id_to_token.length
      · have hold := hrt i hlt
        cases hgt : v.get_token i with
        | none => rw [hgt] at hold; exact Option.noConfusion hold
        | some u =>
          rw [hgt] at hold
          simp only [Option.some_bind] at hold
          rw [get_token_fresh v t h]
          simp only [hlt, if_true, hgt, Option.some_bind]
          rw [get_id_opt_fresh v t h]
          by_cases he : u = t
          · rw [he] at hold; rw [hold] at h; exact Option.noConfusion h
          · simp [he, hold]
      · have hieq : i = v.id_to_token.length := by
          simp only [Vocabulary.len] at hi
          omega
        subst hieq
        rw [get_token_fresh v t h, if_neg hlt, if_pos rfl, Option.some_bind,
          get_id_opt_fresh v t h]
        simp

theorem WellFormed_add_pair (v : Vocabulary) (l r i : Nat) (hv : WellFormed v) :
    WellFormed (v.add_pair l r i) := hv

/-! ## C7: the bidirectional-consistency invariant -/

/-- C7: on a well-formed vocabulary, every in-range id carries a token text
that is the unique string mapping back to that id; `add_token` on a
registered token returns its existing id and changes nothing; `add_token` on
a fresh token assigns the next sequential id `len()`; and all vocabulary
operations (`new`, `add_token`, `add_pair`) preserve well-formedness. -/
theorem vocabulary_bidirectional_invariant (v : Vocabulary) (t : String)
    (l r i : Nat) (hv : WellFormed v) :
    (∀ j, j < v.len → ∃ tok, v.get_token j = some tok ∧ v.get_id_opt tok = some j ∧
      ∀ t2, v.get_id_opt t2 = some j → t2 = tok) ∧
    (∀ j, v.get_id_opt t = some j → v.add_token t = (v, j)) ∧
    (v.get_id_opt t = none → (v.add_token t).2 = v.len ∧
      (v.add_token t).1.len = v.len + 1 ∧
      (v.add_token t).1.get_token v.len = some t) ∧
    WellFormed (v.add_token t).1 ∧
    WellFormed (v.add_pair l r i) ∧
    WellFormed Vocabulary.new := by
  refine ⟨?_, add_token_found v t, ?_, WellFormed_add_token v t hv,
    WellFormed_add_pair v l r i hv, WellFormed_new⟩
  · intro j hj
    have hrt := hv.2.2.2 j hj
    cases hgt : v.get_token j with
    | none => rw [hgt] at hrt; exact Option.noConfusion hrt
    | some tok =>
      rw [hgt] at hrt
      simp only [Option.some_bind] at hrt
      refine ⟨tok, rfl, hrt, ?_⟩
      intro t2 h2
      have hmem : (t2, j) ∈ v.token_to_id := lookupStr_some_mem h2
      have := hv.2.2.1 (t2, j) hmem
      rw [hgt] at this
      exact (Option.some.inj this).symm
  · intro h
    refine ⟨?_, len_fresh v t h, ?_⟩
    · rw [(add_token_fresh v t h).2.2.2]; rfl
    · rw [get_token_fresh v t h]
      simp [Vocabulary.len]

/-! ## Character registration during initialization -/

/-- The set of registered token texts. -/
def registered (v : Vocabulary) : Finset String :=
  (v.token_to_id.map Prod.fst).toFinset

theorem registered_add_token (v : Vocabulary) (t : String) :
    registered (v.add_token t).1 = insert t (registered v) := by
  cases h : v.get_id_opt t with
  | some i =>
    rw [add_token_found v t i h]
    have ht : t ∈ registered v := by
      simp only [registered, List.mem_toFinset, List.mem_map]
      exact ⟨(t, i), lookupStr_some_mem h, rfl⟩
    exact (Finset.insert_eq_self.mpr ht).symm
  | none =>
    simp [registered, (add_token_fresh v t h).1]

theorem len_eq_card (v : Vocabulary) (hv : WellFormed v) :
    v.len = (registered v).card := by
  have h1 : (registered v).card = (v.token_to_id.map Prod.fst).length :=
    List.toFinset_card_of_nodup hv.1
  rw [h1, List.length_map, hv.2.1]
  rfl

theorem addChars_wf : ∀ (cs : List Char) (v : Vocabulary), WellFormed v →
    WellFormed (addChars v cs).1 := by
  intro cs
  induction cs with
  | nil => intro v hv; exact hv
  | cons c cs ih =>
    intro v hv
    exact ih _ (WellFormed_add_token v (String.singleton c) hv)

theorem addChars_extends : ∀ (cs : List Char) (v : Vocabulary),
    Extends v (addChars v cs).1 := by
  intro cs
  induction cs with
  | nil => intro v; exact Extends.rfl v
  | cons c cs ih =>
    intro v
    exact Extends.trans (extends_add_token v (String.singleton c)) (ih _)

theorem addChars_pairs : ∀ (cs : List Char) (v : Vocabulary),
    (addChars v cs).1.pairs = v.pairs := by
  intro cs
  induction cs with
  | nil => intro v; rfl
  | cons c cs ih =>
    intro v
    rw [show (addChars v (c :: cs)).1
        = (addChars (v.add_token (String.singleton c)).1 cs).1 from rfl]
    rw [ih, add_token_pairs]

theorem addChars_registered : ∀ (cs : List Char) (v : Vocabulary),
    registered (addChars v cs).1 = registered v ∪ (cs.map String.singleton).toFinset := by
  intro cs
  induction cs with
  | nil => intro v; simp [addChars]
  | cons c cs ih =>
    intro v
    rw [show (addChars v (c :: cs)).1
        = (addChars (v.add_token (String.singleton c)).1 cs).1 from rfl]
    rw [ih, registered_add_token]
    ext x
    simp only [Finset.mem_union, Finset.mem_insert, List.mem_toFinset, List.map_cons,
      List.mem_cons]
    tauto

theorem addChars_mem : ∀ (cs : List Char) (v : Vocabulary), WellFormed v →
    ∀ c ∈ cs, ∃ i, (addChars v cs).1.get_id_opt (String.singleton c) = some i ∧
      (addChars v cs).1.get_token i = some (String.singleton c) := by
  intro cs
  induction cs with
  | nil => intro v _ c hc; exact absurd hc (List.not_mem_nil c)
  | cons c0 cs ih =>
    intro v hv c hc
    rw [show (addChars v (c0 :: cs)).1
        = (addChars (v.add_token (String.singleton c0)).1 cs).1 from rfl]
    rcases List.mem_cons.mp hc with hc0 | hc0
    · subst hc0
      obtain ⟨h1, h2, -⟩ := add_token_spec v (String.singleton c) hv
      have hext := addChars_extends cs (v.add_token (String.singleton c)).1
      exact ⟨(v.add_token (String.singleton c)).2,
        hext.2.2 _ _ h2, hext.2.1 _ _ h1⟩
    · exact ih _ (WellFormed_add_token v (String.singleton c0) hv) c hc0

theorem addChars_ids_lt : ∀ (cs : List Char) (v : Vocabulary), WellFormed v →
    ∀ id ∈ (addChars v cs).2, id < (addChars v cs).1.len := by
  intro cs
  induction cs with
  | nil => intro v _ id hid; exact absurd hid (List.not_mem_nil id)
  | cons c cs ih =>
    intro v hv id hid
    rw [show (addChars v (c :: cs)).2
        = (v.add_token (String.singleton c)).2
            :: (addChars (v.add_token (String.singleton c)).1 cs).2 from rfl] at hid
    rw [show (addChars v (c :: cs)).1
        = (addChars (v.add_token (String.singleton c)).1 cs).1 from rfl]
    rcases List.mem_cons.mp hid with h0 | h0
    · subst h0
      have hlt := (add_token_spec v (String.singleton c) hv).2.2
      have hext := addChars_extends cs (v.add_token (String.singleton c)).1
      exact Nat.lt_of_lt_of_le hlt hext.1
    · exact ih _ (WellFormed_add_token v (String.singleton c) hv) id h0

/-- The vocabulary component of `init_char_sequences` as a plain fold. -/
def init_vocab (entries : List (String × Nat)) (v : Vocabulary) : Vocabulary :=
  entries.foldl (fun v e => (addChars v e.1.data).1) v

theorem init_step_fst (acc : Vocabulary × List (List Nat) × List Nat)
    (e : String × Nat) : (init_step acc e).1 = (addChars acc.1 e.1.data).1 := by
  simp only [init_step]
  split <;> rfl

theorem foldl_init_step_fst : ∀ (entries : List (String × Nat))
    (acc : Vocabulary × List (List Nat) × List Nat),
    (entries.foldl init_step acc).1 = init_vocab entries acc.1 := by
  intro entries
  induction entries with
  | nil => intro acc; rfl
  | cons e es ih =>
    intro acc
    rw [List.foldl_cons, ih, init_step_fst]
    rfl

theorem init_vocab_wf : ∀ (entries : List (String × Nat)) (v : Vocabulary),
    WellFormed v → WellFormed (init_vocab entries v) := by
  intro entries
  induction entries with
  | nil => intro v hv; exact hv
  | cons e es ih =>
    intro v hv
    exact ih _ (addChars_wf e.1.data v hv)

theorem init_vocab_extends : ∀ (entries : List (String × Nat)) (v : Vocabulary),
    Extends v (init_vocab entries v) := by
  intro entries
  induction entries with
  | nil => intro v; exact Extends.rfl v
  | cons e es ih =>
    intro v
    exact Extends.trans (addChars_extends e.1.data v) (ih _)

theorem init_vocab_pairs : ∀ (entries : List (String × Nat)) (v : Vocabulary),
    (init_vocab entries v).pairs = v.pairs := by
  intro entries
  induction entries with
  | nil => intro v; rfl
  | cons e es ih =>
    intro v
    rw [show init_vocab (e :: es) v = init_vocab es (addChars v e.1.data).1 from rfl]
    rw [ih, addChars_pairs]

theorem init_vocab_registered : ∀ (entries : List (String × Nat)) (v : Vocabulary),
    registered (init_vocab entries v) =
      registered v ∪ (entries.flatMap (fun e => e.1.data.map String.singleton)).toFinset := by
  intro entries
  induction entries with
  | nil => intro v; simp [init_vocab]
  | cons e es ih =>
    intro v
    rw [show init_vocab (e :: es) v = init_vocab es (addChars v e.1.data).1 from rfl]
    rw [ih, addChars_registered]
    ext x
    simp only [Finset.mem_union, List.mem_toFinset, List.flatMap_cons, List.mem_append]
    tauto

theorem init_vocab_mem : ∀ (entries : List (String × Nat)) (v : Vocabulary),
    WellFormed v → ∀ e ∈ entries, ∀ c ∈ e.1.data,
    ∃ i, (init_vocab entries v).get_id_opt (String.singleton c) = some i ∧
      (init_vocab entries v).get_token i = some (String.singleton c) := by
  intro entries
  induction entries with
  | nil => intro v _ e he; exact absurd he (List.not_mem_nil e)
  | cons e0 es ih =>
    intro v hv e he c hc
    rw [show init_vocab (e0 :: es) v = init_vocab es (addChars v e0.1.data).1 from rfl]
    rcases List.mem_cons.mp he with he0 | he0
    · subst he0
      obtain ⟨i, h1, h2⟩ := addChars_mem e.1.data v hv c hc
      have hext := init_vocab_extends es (addChars v e.1.data).1
      exact ⟨i, hext.2.2 _ _ h1, hext.2.1 _ _ h2⟩
    · exact ih _ (addChars_wf e0.1.data v hv) e he0 c hc

/-! ## Counting distinct characters (C5) -/

/-- The characters of the non-empty pretokens. -/
def corpusChars (pretokens : List String) : List Char :=
  (pretokens.filter (fun p => !p.data.isEmpty)).flatMap String.data

/-- The initial vocabulary size of the spec's growth bound: the 4 special
tokens plus the number of distinct characters occurring in the non-empty
pretokens. -/
def initial_char_vocab_size (pretokens : List String) : Nat :=
  4 + (corpusChars pretokens).toFinset.card

theorem bumpStr_keys (k : String) (f : Nat) : ∀ (m : List (String × Nat)) (x : String),
    x ∈ (bumpStr m k f).map Prod.fst ↔ x ∈ m.map Prod.fst ∨ x = k := by
  intro m
  induction m with
  | nil => intro x; simp [bumpStr]
  | cons e rest ih =>
    intro x
    obtain ⟨k0, c0⟩ := e
    simp only [bumpStr]
    by_cases he : k0 = k
    · subst he
      rw [if_pos rfl]
      simp only [List.map_cons, List.mem_cons]
      tauto
    · simp only [if_neg he, List.map_cons, List.mem_cons, ih]
      tauto

theorem cpf_keys_aux : ∀ (ps : List String) (acc : List (String × Nat)) (x : String),
    x ∈ (ps.foldl (fun freqs p => if p.data.isEmpty then freqs else bumpStr freqs p 1)
        acc).map Prod.fst
      ↔ x ∈ acc.map Prod.fst ∨ (x ∈ ps ∧ x.data.isEmpty = false) := by
  intro ps
  induction ps with
  | nil => intro acc x; simp
  | cons p ps ih =>
    intro acc x
    rw [List.foldl_cons]
    by_cases hp : p.data.isEmpty
    · rw [if_pos hp, ih]
      constructor
      · rintro (h | ⟨h1, h2⟩)
        · exact Or.inl h
        · exact Or.inr ⟨List.mem_cons_of_mem _ h1, h2⟩
      · rintro (h | ⟨h1, h2⟩)
        · exact Or.inl h
        · rcases List.mem_cons.mp h1 with h3 | h3
          · subst h3; rw [hp] at h2; exact absurd h2 (by decide)
          · exact Or.inr ⟨h3, h2⟩
    · rw [if_neg hp, ih]
      have hp2 : p.data.isEmpty = false := by simpa using hp
      constructor
      · rintro (h | ⟨h1, h2⟩)
        · rcases (bumpStr_keys p 1 acc x).mp h with h3 | h3
          · exact Or.inl h3
          · subst h3; exact Or.inr ⟨List.mem_cons_self _ _, hp2⟩
        · exact Or.inr ⟨List.mem_cons_of_mem _ h1, h2⟩
      · rintro (h | ⟨h1, h2⟩)
        · exact Or.inl ((bumpStr_keys p 1 acc x).mpr (Or.inl h))
        · rcases List.mem_cons.mp h1 with h3 | h3
          · subst h3
            exact Or.inl ((bumpStr_keys x 1 acc x).mpr (Or.inr rfl))
          · exact Or.inr ⟨h3, h2⟩

theorem cpf_keys (ps : List String) (x : String) :
    x ∈ (count_pretoken_freqs ps).map Prod.fst ↔
      x ∈ ps ∧ x.data.isEmpty = false := by
  rw [count_pretoken_freqs, cpf_keys_aux]
  simp

theorem mem_flatMap_keys (entries : List (String × Nat)) (x : String) :
    x ∈ entries.flatMap (fun e => e.1.data.map String.singleton) ↔
      ∃ p ∈ entries.map Prod.fst, x ∈ p.data.map String.singleton := by
  rw [List.mem_flatMap]
  constructor
  · rintro ⟨e, he, hx⟩
    exact ⟨e.1, List.mem_map.mpr ⟨e, he, rfl⟩, hx⟩
  · rintro ⟨p, hp, hx⟩
    obtain ⟨e, he, rfl⟩ := List.mem_map.mp hp
    exact ⟨e, he, hx⟩

theorem init_charset_eq (ps : List String) :
    ((count_pretoken_freqs ps).flatMap (fun e => e.1.data.map String.singleton)).toFinset
      = Finset.image String.singleton (corpusChars ps).toFinset := by
  ext x
  rw [List.mem_toFinset, mem_flatMap_keys]
  simp only [Finset.mem_image, List.mem_toFinset]
  constructor
  · rintro ⟨p, hp, hx⟩
    rw [cpf_keys] at hp
    obtain ⟨c, hc, rfl⟩ := List.mem_map.mp hx
    refine ⟨c, ?_, rfl⟩
    rw [corpusChars, List.mem_flatMap]
    exact ⟨p, List.mem_filter.mpr ⟨hp.1, by simp [hp.2]⟩, hc⟩
  · rintro ⟨c, hc, rfl⟩
    rw [corpusChars, List.mem_flatMap] at hc
    obtain ⟨p, hp, hcp⟩ := hc
    have hp2 := List.mem_filter.mp hp
    refine ⟨p, (cpf_keys ps p).mpr ⟨hp2.1, by simpa using hp2.2⟩, ?_⟩
    exact List.mem_map.mpr ⟨c, hcp, rfl⟩

theorem singleton_inj : Function.Injective String.singleton := by
  intro a b h
  have h2 : ([a] : List Char) = [b] := congrArg String.data h
  exact (List.cons.injEq a [] b []).mp h2 |>.1

theorem singleton_ne_of_len (w : String) (hw : w.data.length = 5) (c : Char) :
    String.singleton c ≠ w := by
  intro h
  have h1 : (String.singleton c).data.length = 1 := rfl
  rw [h, hw] at h1
  exact absurd h1 (by decide)

theorem singleton_notin_new (c : Char) :
    String.singleton c ∉ registered Vocabulary.new := by
  intro hmem
  have hk : Vocabulary.new.token_to_id.map Prod.fst
      = ["[EOS]", "[BOS]", "[PAD]", "[UNK]"] := by decide
  rw [registered, hk, List.mem_toFinset] at hmem
  simp only [List.mem_cons, List.not_mem_nil, or_false] at hmem
  rcases hmem with h | h | h | h
  · exact singleton_ne_of_len _ (by decide) c h
  · exact singleton_ne_of_len _ (by decide) c h
  · exact singleton_ne_of_len _ (by decide) c h
  · exact singleton_ne_of_len _ (by decide) c h

theorem init_len (ps : List String) :
    (init_vocab (count_pretoken_freqs ps) Vocabulary.new).len
      = initial_char_vocab_size ps := by
  have hwf := init_vocab_wf (count_pretoken_freqs ps) Vocabulary.new WellFormed_new
  rw [len_eq_card _ hwf, init_vocab_registered, init_charset_eq]
  have hdisj : Disjoint (registered Vocabulary.new)
      (Finset.image String.singleton (corpusChars ps).toFinset) := by
    rw [Finset.disjoint_right]
    intro a ha
    obtain ⟨c, -, rfl⟩ := Finset.mem_image.mp ha
    exact singleton_notin_new c
  rw [Finset.card_union_of_disjoint hdisj,
    Finset.card_image_of_injective _ singleton_inj]
  have h4 : (registered Vocabulary.new).card = 4 := by decide
  rw [h4]
  rfl

/-! ## Loop bounds on the vocabulary size (C5) -/

theorem add_pair_len (v : Vocabulary) (l r i : Nat) :
    (v.add_pair l r i).len = v.len := rfl

theorem merge_tokens_len_le (v : Vocabulary) (l r : Nat) :
    (merge_tokens v l r).1.len ≤ v.len + 1 := by
  simp only [merge_tokens]
  rw [add_pair_len]
  exact add_token_len_le _ _

theorem merge_tokens_extends (v : Vocabulary) (l r : Nat) :
    Extends v (merge_tokens v l r).1 := by
  simp only [merge_tokens]
  exact Extends.trans (extends_add_token _ _) (extends_add_pair _ _ _ _)

theorem trainLoop_len_lb : ∀ (fuel : Nat) (v : Vocabulary) (s : List (List Nat))
    (f : List Nat) (t : Nat), v.len ≤ (trainLoop fuel v s f t).len := by
  intro fuel
  induction fuel with
  | zero => intro v s f t; exact Nat.le_refl _
  | succ fuel ih =>
    intro v s f t
    simp only [trainLoop]
    by_cases h1 : v.len < t
    · rw [if_pos h1]
      by_cases h2 : (count_pair_freqs s f).isEmpty
      · rw [if_pos h2]
      · rw [if_neg h2]
        exact Nat.le_trans (merge_tokens_extends v _ _).1 (ih _ _ _ _)
    · rw [if_neg h1]

theorem trainLoop_len_ub : ∀ (fuel : Nat) (v : Vocabulary) (s : List (List Nat))
    (f : List Nat) (t : Nat), (trainLoop fuel v s f t).len ≤ max t v.len := by
  intro fuel
  induction fuel with
  | zero => intro v s f t; exact Nat.le_max_right _ _
  | succ fuel ih =>
    intro v s f t
    simp only [trainLoop]
    by_cases h1 : v.len < t
    · rw [if_pos h1]
      by_cases h2 : (count_pair_freqs s f).isEmpty
      · rw [if_pos h2]
        exact Nat.le_max_right _ _
      · rw [if_neg h2]
        have hm : (merge_tokens v (find_most_frequent_pair (count_pair_freqs s f)).1
            (find_most_frequent_pair (count_pair_freqs s f)).2).1.len ≤ t :=
          Nat.le_trans (merge_tokens_len_le v _ _) h1
        calc (trainLoop fuel _ _ f t).len
            ≤ max t (merge_tokens v _ _).1.len := ih _ _ _ _
          _ = t := Nat.max_eq_left hm
          _ ≤ max t v.len := Nat.le_max_left _ _
    · rw [if_neg h1]
      exact Nat.le_max_right _ _

/-! ## C5: monotonic growth bound -/

/-- C5: for every pretoken input and target size, the trained vocabulary
satisfies `initial_char_vocab_size ≤ len()` and
`len() ≤ max(target_vocab_size, initial_char_vocab_size)`, where
`initial_char_vocab_size` is 4 special tokens plus the number of distinct
characters occurring in the non-empty pretokens. -/
theorem train_len_bounds (pretokens : List String) (target_vocab_size : Nat) :
    initial_char_vocab_size pretokens ≤ (train pretokens target_vocab_size).len ∧
    (train pretokens target_vocab_size).len
      ≤ max target_vocab_size (initial_char_vocab_size pretokens) := by
  have hfst : (init_char_sequences (count_pretoken_freqs pretokens) Vocabulary.new).1
      = init_vocab (count_pretoken_freqs pretokens) Vocabulary.new :=
    foldl_init_step_fst (count_pretoken_freqs pretokens) (Vocabulary.new, [], [])
  simp only [train]
  rw [hfst]
  constructor
  · exact Nat.le_trans (Nat.le_of_eq (init_len pretokens).symm)
      (trainLoop_len_lb _ _ _ _ _)
  · calc (trainLoop _ _ _ _ target_vocab_size).len
        ≤ max target_vocab_size
            (init_vocab (count_pretoken_freqs pretokens) Vocabulary.new).len :=
          trainLoop_len_ub _ _ _ _ _
      _ = max target_vocab_size (initial_char_vocab_size pretokens) := by
          rw [init_len]

/-! ## Termination of the merge loop (C10) -/

theorem train_seq_eq_encode (l r m : Nat) (x : List Nat) :
    train_apply_merge_seq l r m x = encode_apply_merge l r m x := by
  cases x with
  | nil => rfl
  | cons a rest => exact (apply_merge_go_eq l r m rest a).symm

theorem apply_merge_go_length_le (l r m : Nat) : ∀ (bs : List Nat) (cur : Nat),
    (encode_apply_merge_go l r m cur bs).length ≤ bs.length + 1 := by
  intro bs
  induction bs with
  | nil => intro cur; simp [encode_apply_merge_go]
  | cons b rest ih =>
    intro cur
    simp only [encode_apply_merge_go]
    by_cases hc : cur = l ∧ b = r
    · rw [if_pos hc]
      exact Nat.le_trans (ih m) (by simp)
    · rw [if_neg hc]
      simpa using Nat.succ_le_succ (ih b)

theorem encode_apply_merge_length_le (l r m : Nat) (ids : List Nat) :
    (encode_apply_merge l r m ids).length ≤ ids.length := by
  cases ids with
  | nil => exact Nat.le_refl _
  | cons a rest => simpa using apply_merge_go_length_le l r m rest a

theorem apply_merge_go_length_lt (l r m : Nat) : ∀ (bs : List Nat) (cur : Nat),
    (l, r) ∈ seqPairs (cur :: bs) →
    (encode_apply_merge_go l r m cur bs).length ≤ bs.length := by
  intro bs
  induction bs with
  | nil => intro cur h; simp [seqPairs] at h
  | cons b rest ih =>
    intro cur h
    simp only [encode_apply_merge_go]
    by_cases hc : cur = l ∧ b = r
    · rw [if_pos hc]
      simpa using apply_merge_go_length_le l r m rest m
    · rw [if_neg hc]
      have h2 : (l, r) ∈ seqPairs (b :: rest) := by
        simp only [seqPairs, List.tail_cons, List.zip_cons_cons, List.mem_cons,
          Prod.mk.injEq] at h
        rcases h with ⟨h3, h4⟩ | h5
        · exact absurd ⟨h3.symm, h4.symm⟩ hc
        · exact h5
      simpa using Nat.succ_le_succ (ih b h2)

theorem encode_apply_merge_length_lt (l r m : Nat) (seq : List Nat)
    (h : (l, r) ∈ seqPairs seq) :
    (encode_apply_merge l r m seq).length < seq.length := by
  cases seq with
  | nil => simp [seqPairs] at h
  | cons a rest =>
    simp only [encode_apply_merge, List.length_cons]
    exact Nat.lt_succ_of_le (apply_merge_go_length_lt l r m rest a h)

theorem totalLen_cons (x : List Nat) (w : List (List Nat)) :
    totalLen (x :: w) = x.length + totalLen w := by
  simp [totalLen]

theorem totalLen_map_le (F : List Nat → List Nat)
    (hle : ∀ x, (F x).length ≤ x.length) : ∀ (w : List (List Nat)),
    totalLen (w.map F) ≤ totalLen w := by
  intro w
  induction w with
  | nil => exact Nat.le_refl _
  | cons y ws ih =>
    rw [List.map_cons, totalLen_cons, totalLen_cons]
    exact Nat.add_le_add (hle y) ih

theorem totalLen_map_lt (F : List Nat → List Nat)
    (hle : ∀ x, (F x).length ≤ x.length) :
    ∀ (w : List (List Nat)) (seq : List Nat), seq ∈ w →
    (F seq).length < seq.length → totalLen (w.map F) < totalLen w := by
  intro w
  induction w with
  | nil => intro seq h; exact absurd h (List.not_mem_nil seq)
  | cons y ws ih =>
    intro seq hmem hlt
    rw [List.map_cons, totalLen_cons, totalLen_cons]
    rcases List.mem_cons.mp hmem with h0 | h0
    · subst h0
      exact Nat.add_lt_add_of_lt_of_le hlt (totalLen_map_le F hle ws)
    · exact Nat.add_lt_add_of_le_of_lt (hle y) (ih seq h0 hlt)

theorem bump_keys (k : Nat × Nat) (f : Nat) : ∀ (m : List ((Nat × Nat) × Nat))
    (x : Nat × Nat),
    x ∈ (bump m k f).map Prod.fst ↔ x ∈ m.map Prod.fst ∨ x = k := by
  intro m
  induction m with
  | nil => intro x; simp [bump]
  | cons e rest ih =>
    intro x
    obtain ⟨k0, c0⟩ := e
    simp only [bump]
    by_cases he : k0 = k
    · subst he
      rw [if_pos rfl]
      simp only [List.map_cons, List.mem_cons]
      tauto
    · simp only [if_neg he, List.map_cons, List.mem_cons, ih]
      tauto

theorem bumpList_keys (f : Nat) : ∀ (ps : List (Nat × Nat))
    (m : List ((Nat × Nat) × Nat)) (x : Nat × Nat),
    x ∈ (bumpList m ps f).map Prod.fst → x ∈ m.map Prod.fst ∨ x ∈ ps := by
  intro ps
  induction ps with
  | nil => intro m x h; exact Or.inl h
  | cons p ps ih =>
    intro m x h
    rw [bumpList, List.foldl_cons] at h
    rcases ih (bump m p f) x h with h2 | h2
    · rcases (bump_keys p f m x).mp h2 with h3 | h3
      · exact Or.inl h3
      · exact Or.inr (by simp [h3])
    · exact Or.inr (List.mem_cons_of_mem _ h2)

theorem cpf_pair_keys : ∀ (zs : List (List Nat × Nat))
    (m : List ((Nat × Nat) × Nat)) (x : Nat × Nat),
    x ∈ (zs.foldl (fun acc e => bumpList acc (seqPairs e.1) e.2) m).map Prod.fst →
    x ∈ m.map Prod.fst ∨ ∃ e ∈ zs, x ∈ seqPairs e.1 := by
  intro zs
  induction zs with
  | nil => intro m x h; exact Or.inl h
  | cons z zs ih =>
    intro m x h
    rw [List.foldl_cons] at h
    rcases ih _ x h with h2 | h2
    · rcases bumpList_keys z.2 (seqPairs z.1) m x h2 with h3 | h3
      · exact Or.inl h3
      · exact Or.inr ⟨z, List.mem_cons_self _ _, h3⟩
    · obtain ⟨e, he, hx⟩ := h2
      exact Or.inr ⟨e, List.mem_cons_of_mem _ he, hx⟩

theorem count_pair_freqs_keys (s : List (List Nat)) (f : List Nat) (x : Nat × Nat)
    (h : x ∈ (count_pair_freqs s f).map Prod.fst) :
    ∃ e ∈ s.zip f, x ∈ seqPairs e.1 := by
  rw [count_pair_freqs] at h
  rcases cpf_pair_keys (s.zip f) [] x h with h2 | h2
  · simp at h2
  · exact h2

theorem foldl_pick_mem : ∀ (rest : List ((Nat × Nat) × Nat)) (e : (Nat × Nat) × Nat),
    rest.foldl (fun best e2 => if best.2 ≤ e2.2 then e2 else best) e ∈ e :: rest := by
  intro rest
  induction rest with
  | nil => intro e; exact List.mem_singleton.mpr rfl
  | cons y ys ih =>
    intro e
    rw [List.foldl_cons]
    rcases List.mem_cons.mp (ih (if e.2 ≤ y.2 then y else e)) with h | h
    · rw [h]
      by_cases hc : e.2 ≤ y.2
      · simp [hc]
      · simp [hc]
    · exact List.mem_cons_of_mem _ (List.mem_cons_of_mem _ h)

theorem find_most_frequent_pair_mem (m : List ((Nat × Nat) × Nat)) (h : m ≠ []) :
    find_most_frequent_pair m ∈ m.map Prod.fst := by
  cases m with
  | nil => exact absurd rfl h
  | cons e rest =>
    rw [find_most_frequent_pair]
    exact List.mem_map.mpr ⟨_, foldl_pick_mem rest e, rfl⟩

theorem selected_pair_decreases (s : List (List Nat)) (f : List Nat) (m : Nat)
    (h : count_pair_freqs s f ≠ []) :
    totalLen (train_apply_merge s (find_most_frequent_pair (count_pair_freqs s f)).1
      (find_most_frequent_pair (count_pair_freqs s f)).2 m) < totalLen s := by
  have hk := find_most_frequent_pair_mem (count_pair_freqs s f) h
  obtain ⟨e, he, hp⟩ := count_pair_freqs_keys s f _ hk
  have hseq : e.1 ∈ s := (List.of_mem_zip he).1
  have hle : ∀ x : List Nat,
      (train_apply_merge_seq (find_most_frequent_pair (count_pair_freqs s f)).1
        (find_most_frequent_pair (count_pair_freqs s f)).2 m x).length ≤ x.length := by
    intro x
    rw [train_seq_eq_encode]
    exact encode_apply_merge_length_le _ _ _ x
  have hlt : (train_apply_merge_seq (find_most_frequent_pair (count_pair_freqs s f)).1
      (find_most_frequent_pair (count_pair_freqs s f)).2 m e.1).length < e.1.length := by
    rw [train_seq_eq_encode]
    exact encode_apply_merge_length_lt _ _ _ e.1 (by simpa using hp)
  exact totalLen_map_lt _ hle s e.1 hseq hlt

theorem trainLoop_fuel_stable : ∀ (N : Nat) (v : Vocabulary) (s : List (List Nat))
    (f : List Nat) (t extra : Nat), totalLen s ≤ N →
    trainLoop (N + 1 + extra) v s f t = trainLoop (N + 1) v s f t := by
  intro N
  induction N using Nat.strong_induction_on with
  | _ N ih =>
    intro v s f t extra hN
    have h1 : N + 1 + extra = (N + extra) + 1 := by omega
    rw [h1]
    simp only [trainLoop]
    by_cases hlt : v.len < t
    · rw [if_pos hlt, if_pos hlt]
      by_cases he : (count_pair_freqs s f).isEmpty
      · rw [if_pos he, if_pos he]
      · rw [if_neg he, if_neg he]
        have hne : count_pair_freqs s f ≠ [] := by
          intro hnil
          rw [hnil] at he
          exact he rfl
        have hdec := selected_pair_decreases s f
          (merge_tokens v (find_most_frequent_pair (count_pair_freqs s f)).1
            (find_most_frequent_pair (count_pair_freqs s f)).2).2 hne
        set s2 := train_apply_merge s (find_most_frequent_pair (count_pair_freqs s f)).1
          (find_most_frequent_pair (count_pair_freqs s f)).2
          (merge_tokens v (find_most_frequent_pair (count_pair_freqs s f)).1
            (find_most_frequent_pair (count_pair_freqs s f)).2).2 with hs2
        have hM : totalLen s2 < N + 1 := by omega
        have hA : N + extra = totalLen s2 + 1 + (N + extra - totalLen s2 - 1) := by
          omega
        have hB : N = totalLen s2 + 1 + (N - totalLen s2 - 1) := by omega
        rw [hA, ih (totalLen s2) (by omega) _ s2 f t _ (Nat.le_refl _), hB,
          ih (totalLen s2) (by omega) _ s2 f t _ (Nat.le_refl _)]
    · rw [if_neg hlt, if_neg hlt]

/-! ## C10: train terminates -/

/-- C10: each iteration of the merge loop with a non-empty pair count selects
a pair that occurs adjacently in some working sequence, so `apply_merge`
strictly decreases the total number of symbols (first conjunct); hence the
loop reaches its exit condition within `totalLen` iterations: running
`trainLoop` with any fuel beyond `totalLen s + 1` — the budget `train`
supplies — returns exactly the same vocabulary (second conjunct), i.e. the
`while` loop of `train` cannot run forever even when the vocabulary stops
growing. -/
theorem train_merge_loop_terminates (s : List (List Nat)) (f : List Nat)
    (m : Nat) (v : Vocabulary) (t N extra : Nat)
    (h : count_pair_freqs s f ≠ []) (hN : totalLen s ≤ N) :
    totalLen (train_apply_merge s (find_most_frequent_pair (count_pair_freqs s f)).1
      (find_most_frequent_pair (count_pair_freqs s f)).2 m) < totalLen s ∧
    trainLoop (N + 1 + extra) v s f t = trainLoop (N + 1) v s f t :=
  ⟨selected_pair_decreases s f m h, trainLoop_fuel_stable N v s f t extra hN⟩

/-- Witness for C10: a two-symbol working sequence at concrete inputs. -/
theorem train_merge_loop_terminates_witness :
    totalLen (train_apply_merge [[1, 2]]
      (find_most_frequent_pair (count_pair_freqs [[1, 2]] [5])).1
      (find_most_frequent_pair (count_pair_freqs [[1, 2]] [5])).2 9) < totalLen [[1, 2]] ∧
    trainLoop (2 + 1 + 7) Vocabulary.new [[1, 2]] [5] 100 =
      trainLoop (2 + 1) Vocabulary.new [[1, 2]] [5] 100 :=
  train_merge_loop_terminates [[1, 2]] [5] 9 Vocabulary.new 100 2 7
    (by decide) (by decide)

/-! ## Decode algebra (towards C1) -/

theorem str_mk_data (s : String) : String.mk s.data = s := by
  cases s
  rfl

theorem str_mk_append (l1 l2 : List Char) :
    String.mk l1 ++ String.mk l2 = String.mk (l1 ++ l2) := rfl

theorem str_append_assoc (a b c : String) : a ++ b ++ c = a ++ (b ++ c) := by
  cases a; cases b; cases c
  exact congrArg String.mk (List.append_assoc _ _ _)

theorem str_append_empty (a : String) : a ++ "" = a := by
  cases a
  exact congrArg String.mk (List.append_nil _)

theorem str_empty_append (a : String) : "" ++ a = a := by
  cases a
  rfl

/-- The text `decode` appends for one id. -/
def idText (v : Vocabulary) (id : Nat) : String :=
  (v.get_token id).getD UNK_TOKEN

theorem decode_step (v : Vocabulary) (acc : String) (id : Nat) :
    (match v.get_token id with
     | some token => acc ++ token
     | none => acc ++ UNK_TOKEN) = acc ++ idText v id := by
  cases h : v.get_token id <;> simp [idText, h]

theorem decode_foldl_acc (v : Vocabulary) : ∀ (ids : List Nat) (acc : String),
    ids.foldl (fun result id =>
      match v.get_token id with
      | some token => result ++ token
      | none => result ++ UNK_TOKEN) acc = acc ++ decode v ids := by
  intro ids
  induction ids with
  | nil => intro acc; exact (str_append_empty acc).symm
  | cons id ids ih =>
    intro acc
    have h2 : decode v (id :: ids) = idText v id ++ decode v ids := by
      rw [decode, List.foldl_cons, ih, decode_step, str_empty_append]
    rw [List.foldl_cons, ih, decode_step, h2, str_append_assoc]

theorem decode_cons (v : Vocabulary) (id : Nat) (ids : List Nat) :
    decode v (id :: ids) = idText v id ++ decode v ids := by
  rw [decode, List.foldl_cons, decode_foldl_acc, decode_step]
  rfl

theorem decode_nil (v : Vocabulary) : decode v [] = "" := rfl

theorem decode_go_merge (v : Vocabulary) (l r m : Nat)
    (hf : idText v m = idText v l ++ idText v r) :
    ∀ (bs : List Nat) (cur : Nat),
    decode v (encode_apply_merge_go l r m cur bs) = idText v cur ++ decode v bs := by
  intro bs
  induction bs with
  | nil =>
    intro cur
    rw [show encode_apply_merge_go l r m cur [] = [cur] from rfl, decode_cons]
  | cons b rest ih =>
    intro cur
    simp only [encode_apply_merge_go]
    by_cases hc : cur = l ∧ b = r
    · rw [if_pos hc, ih m, hf, decode_cons, hc.1, hc.2, str_append_assoc]
    · rw [if_neg hc, decode_cons, ih b, decode_cons]

theorem decode_apply_merge (v : Vocabulary) (l r m : Nat)
    (hf : idText v m = idText v l ++ idText v r) (ids : List Nat) :
    decode v (encode_apply_merge l r m ids) = decode v ids := by
  cases ids with
  | nil => rfl
  | cons a rest =>
    rw [show encode_apply_merge l r m (a :: rest)
        = encode_apply_merge_go l r m a rest from rfl,
      decode_go_merge v l r m hf rest a, decode_cons]

theorem decode_foldl_merges (v : Vocabulary) :
    ∀ (L : List BpePair),
    (∀ p ∈ L, idText v p.id = idText v p.left ++ idText v p.right) →
    ∀ ids, decode v (L.foldl (fun ids p =>
      encode_apply_merge p.left p.right p.id ids) ids) = decode v ids := by
  intro L
  induction L with
  | nil => intro _ ids; rfl
  | cons p ps ih =>
    intro hL ids
    rw [List.foldl_cons, ih (fun q hq => hL q (List.mem_cons_of_mem _ hq)),
      decode_apply_merge v _ _ _ (hL p (List.mem_cons_self _ _)) ids]

/-! ## Training invariants (towards C1) -/

/-- Every recorded merge rule's token is the concatenation of its two
constituents' texts. -/
def PairsGood (v : Vocabulary) : Prop :=
  ∀ p ∈ v.pairs, ∃ tl tr, v.get_token p.left = some tl ∧
    v.get_token p.right = some tr ∧ v.get_token p.id = some (tl ++ tr)

/-- All symbols of the working sequences are in-range ids. -/
def SeqValid (v : Vocabulary) (s : List (List Nat)) : Prop :=
  ∀ seq ∈ s, ∀ id ∈ seq, id < v.len

theorem pairsGood_text (v : Vocabulary) (hg : PairsGood v) :
    ∀ p ∈ v.pairs, idText v p.id = idText v p.left ++ idText v p.right := by
  intro p hp
  obtain ⟨tl, tr, h1, h2, h3⟩ := hg p hp
  simp [idText, h1, h2, h3]

theorem merge_tokens_eq (v : Vocabulary) (l r : Nat) (tl tr : String)
    (htl : v.get_token l = some tl) (htr : v.get_token r = some tr) :
    merge_tokens v l r =
      ((v.add_token (tl ++ tr)).1.add_pair l r (v.add_token (tl ++ tr)).2,
       (v.add_token (tl ++ tr)).2) := by
  simp only [merge_tokens, htl, htr, Option.getD_some]

theorem get_token_total (v : Vocabulary) (i : Nat) (h : i < v.len) :
    ∃ t, v.get_token i = some t :=
  ⟨v.id_to_token[i], List.getElem?_eq_getElem h⟩

theorem merge_tokens_full (v : Vocabulary) (l r : Nat) (hv : WellFormed v)
    (hg : PairsGood v) (hl : l < v.len) (hr : r < v.len) :
    WellFormed (merge_tokens v l r).1 ∧ PairsGood (merge_tokens v l r).1 ∧
    (merge_tokens v l r).2 < (merge_tokens v l r).1.len := by
  obtain ⟨tl, htl⟩ := get_token_total v l hl
  obtain ⟨tr, htr⟩ := get_token_total v r hr
  rw [merge_tokens_eq v l r tl tr htl htr]
  obtain ⟨hat1, hat2, hat3⟩ := add_token_spec v (tl ++ tr) hv
  have hwf2 := WellFormed_add_token v (tl ++ tr) hv
  refine ⟨WellFormed_add_pair _ l r _ hwf2, ?_, ?_⟩
  · intro p hp
    have hp2 : p ∈ (v.add_token (tl ++ tr)).1.pairs ++ [⟨l, r, (v.add_token (tl ++ tr)).2⟩] := hp
    rcases List.mem_append.mp hp2 with hold | hnew
    · rw [add_token_pairs] at hold
      obtain ⟨ul, ur, h1, h2, h3⟩ := hg p hold
      have hext := extends_add_token v (tl ++ tr)
      exact ⟨ul, ur, hext.2.1 _ _ h1, hext.2.1 _ _ h2, hext.2.1 _ _ h3⟩
    · have hpe : p = ⟨l, r, (v.add_token (tl ++ tr)).2⟩ := List.mem_singleton.mp hnew
      subst hpe
      have hext := extends_add_token v (tl ++ tr)
      exact ⟨tl, tr, hext.2.1 _ _ htl, hext.2.1 _ _ htr, hat1⟩
  · exact hat3

theorem apply_merge_go_mem (l r m : Nat) : ∀ (bs : List Nat) (cur x : Nat),
    x ∈ encode_apply_merge_go l r m cur bs → x = cur ∨ x ∈ bs ∨ x = m := by
  intro bs
  induction bs with
  | nil =>
    intro cur x hx
    exact Or.inl (List.mem_singleton.mp hx)
  | cons b rest ih =>
    intro cur x hx
    simp only [encode_apply_merge_go] at hx
    by_cases hc : cur = l ∧ b = r
    · rw [if_pos hc] at hx
      rcases ih m x hx with h0 | h0 | h0
      · exact Or.inr (Or.inr h0)
      · exact Or.inr (Or.inl (List.mem_cons_of_mem _ h0))
      · exact Or.inr (Or.inr h0)
    · rw [if_neg hc] at hx
      rcases List.mem_cons.mp hx with h0 | h0
      · exact Or.inl h0
      · rcases ih b x h0 with h1 | h1 | h1
        · exact Or.inr (Or.inl (by simp [h1]))
        · exact Or.inr (Or.inl (List.mem_cons_of_mem _ h1))
        · exact Or.inr (Or.inr h1)

theorem train_apply_merge_seq_mem (l r m : Nat) (seq : List Nat) (x : Nat)
    (hx : x ∈ train_apply_merge_seq l r m seq) : x ∈ seq ∨ x = m := by
  rw [train_seq_eq_encode] at hx
  cases seq with
  | nil => exact absurd hx (List.not_mem_nil x)
  | cons a rest =>
    rcases apply_merge_go_mem l r m rest a x hx with h | h | h
    · exact Or.inl (by simp [h])
    · exact Or.inl (List.mem_cons_of_mem _ h)
    · exact Or.inr h

theorem seqPairs_mem (seq : List Nat) (x y : Nat) (h : (x, y) ∈ seqPairs seq) :
    x ∈ seq ∧ y ∈ seq := by
  have h2 := List.of_mem_zip h
  exact ⟨h2.1, List.mem_of_mem_tail h2.2⟩

theorem trainLoop_invariant : ∀ (fuel : Nat) (v : Vocabulary)
    (s : List (List Nat)) (f : List Nat) (t : Nat),
    WellFormed v → PairsGood v → SeqValid v s →
    WellFormed (trainLoop fuel v s f t) ∧ PairsGood (trainLoop fuel v s f t) ∧
    Extends v (trainLoop fuel v s f t) := by
  intro fuel
  induction fuel with
  | zero => intro v s f t hv hg _; exact ⟨hv, hg, Extends.rfl v⟩
  | succ fuel ih =>
    intro v s f t hv hg hs
    simp only [trainLoop]
    by_cases hlt : v.len < t
    · rw [if_pos hlt]
      by_cases he : (count_pair_freqs s f).isEmpty
      · rw [if_pos he]
        exact ⟨hv, hg, Extends.rfl v⟩
      · rw [if_neg he]
        have hne : count_pair_freqs s f ≠ [] := by
          intro hnil; rw [hnil] at he; exact he rfl
        obtain ⟨e, hez, hp⟩ := count_pair_freqs_keys s f _
          (find_most_frequent_pair_mem _ hne)
        have hseqmem : e.1 ∈ s := (List.of_mem_zip hez).1
        have hmem := seqPairs_mem e.1 _ _ (by simpa using hp)
        have hl : (find_most_frequent_pair (count_pair_freqs s f)).1 < v.len :=
          hs e.1 hseqmem _ hmem.1
        have hr : (find_most_frequent_pair (count_pair_freqs s f)).2 < v.len :=
          hs e.1 hseqmem _ hmem.2
        obtain ⟨hwf2, hg2, hid2⟩ := merge_tokens_full v
          (find_most_frequent_pair (count_pair_freqs s f)).1
          (find_most_frequent_pair (count_pair_freqs s f)).2 hv hg hl hr
        have hext2 := merge_tokens_extends v
          (find_most_frequent_pair (count_pair_freqs s f)).1
          (find_most_frequent_pair (count_pair_freqs s f)).2
        have hs2 : SeqValid (merge_tokens v
            (find_most_frequent_pair (count_pair_freqs s f)).1
            (find_most_frequent_pair (count_pair_freqs s f)).2).1
            (train_apply_merge s (find_most_frequent_pair (count_pair_freqs s f)).1
              (find_most_frequent_pair (count_pair_freqs s f)).2
              (merge_tokens v (find_most_frequent_pair (count_pair_freqs s f)).1
                (find_most_frequent_pair (count_pair_freqs s f)).2).2) := by
          intro seq hseq id hid
          obtain ⟨seq0, hseq0, rfl⟩ := List.mem_map.mp hseq
          rcases train_apply_merge_seq_mem _ _ _ seq0 id hid with h0 | h0
          · exact Nat.lt_of_lt_of_le (hs seq0 hseq0 id h0) hext2.1
          · rw [h0]; exact hid2
        obtain ⟨ha, hb, hc⟩ := ih _ _ f t hwf2 hg2 hs2
        exact ⟨ha, hb, Extends.trans hext2 hc⟩
    · rw [if_neg hlt]
      exact ⟨hv, hg, Extends.rfl v⟩

theorem init_seqvalid : ∀ (entries : List (String × Nat))
    (acc : Vocabulary × List (List Nat) × List Nat),
    WellFormed acc.1 → SeqValid acc.1 acc.2.1 →
    WellFormed (entries.foldl init_step acc).1 ∧
    SeqValid (entries.foldl init_step acc).1 (entries.foldl init_step acc).2.1 := by
  intro entries
  induction entries with
  | nil => intro acc hv hs; exact ⟨hv, hs⟩
  | cons e es ih =>
    intro acc hv hs
    rw [List.foldl_cons]
    have hwf2 : WellFormed (init_step acc e).1 := by
      rw [init_step_fst]
      exact addChars_wf e.1.data acc.1 hv
    have hsv2 : SeqValid (init_step acc e).1 (init_step acc e).2.1 := by
      by_cases hemp : (addChars acc.1 e.1.data).2.isEmpty
      · have h1 : init_step acc e = ((addChars acc.1 e.1.data).1, acc.2.1, acc.2.2) := by
          simp [init_step, hemp]
        rw [h1]
        intro seq hseq id hid
        exact Nat.lt_of_lt_of_le (hs seq hseq id hid)
          (addChars_extends e.1.data acc.1).1
      · have h1 : init_step acc e = ((addChars acc.1 e.1.data).1,
            acc.2.1 ++ [(addChars acc.1 e.1.data).2], acc.2.2 ++ [e.2]) := by
          simp [init_step, hemp]
        rw [h1]
        intro seq hseq id hid
        rcases List.mem_append.mp hseq with h0 | h0
        · exact Nat.lt_of_lt_of_le (hs seq h0 id hid)
            (addChars_extends e.1.data acc.1).1
        · have hse : seq = (addChars acc.1 e.1.data).2 := List.mem_singleton.mp h0
          subst hse
          exact addChars_ids_lt e.1.data acc.1 hv id hid
    exact ih (init_step acc e) hwf2 hsv2

theorem train_invariants (ps : List String) (t : Nat) :
    WellFormed (train ps t) ∧ PairsGood (train ps t) ∧
    Extends (init_char_sequences (count_pretoken_freqs ps) Vocabulary.new).1
      (train ps t) := by
  have hinit := init_seqvalid (count_pretoken_freqs ps) (Vocabulary.new, [], [])
    WellFormed_new (fun seq hseq => absurd hseq (List.not_mem_nil seq))
  have hpg : PairsGood (init_char_sequences (count_pretoken_freqs ps)
      Vocabulary.new).1 := by
    intro p hp
    have hpairs : (init_char_sequences (count_pretoken_freqs ps)
        Vocabulary.new).1.pairs = [] := by
      rw [show (init_char_sequences (count_pretoken_freqs ps) Vocabulary.new).1
          = init_vocab (count_pretoken_freqs ps) Vocabulary.new from
        foldl_init_step_fst _ _]
      rw [init_vocab_pairs]
      rfl
    rw [hpairs] at hp
    exact absurd hp (List.not_mem_nil p)
  have hmain := trainLoop_invariant
    (totalLen (init_char_sequences (count_pretoken_freqs ps) Vocabulary.new).2.1 + 1)
    (init_char_sequences (count_pretoken_freqs ps) Vocabulary.new).1
    (init_char_sequences (count_pretoken_freqs ps) Vocabulary.new).2.1
    (init_char_sequences (count_pretoken_freqs ps) Vocabulary.new).2.2 t
    hinit.1 hpg hinit.2
  exact hmain

theorem train_char_registered (ps : List String) (t : Nat) (c : Char)
    (hc : ∃ p ∈ ps, c ∈ p.data) :
    ∃ i, (train ps t).get_id_opt (String.singleton c) = some i ∧
      (train ps t).get_token i = some (String.singleton c) := by
  obtain ⟨p, hp, hcp⟩ := hc
  have hne : p.data.isEmpty = false := by
    cases hd : p.data with
    | nil => rw [hd] at hcp; exact absurd hcp (List.not_mem_nil c)
    | cons a l => rfl
  have hpm : p ∈ (count_pretoken_freqs ps).map Prod.fst :=
    (cpf_keys ps p).mpr ⟨hp, hne⟩
  obtain ⟨e, he, hep⟩ := List.mem_map.mp hpm
  obtain ⟨i, h1, h2⟩ := init_vocab_mem (count_pretoken_freqs ps) Vocabulary.new
    WellFormed_new e he c (by rw [hep]; exact hcp)
  have hext := (train_invariants ps t).2.2
  rw [← foldl_init_step_fst (count_pretoken_freqs ps) (Vocabulary.new, [], [])] at h1 h2
  exact ⟨i, hext.2.2 _ _ h1, hext.2.1 _ _ h2⟩

theorem decode_map_chars (v : Vocabulary) : ∀ (cs : List Char),
    (∀ c ∈ cs, ∃ i, v.get_id_opt (String.singleton c) = some i ∧
      v.get_token i = some (String.singleton c)) →
    decode v (cs.map (fun ch => v.get_id (String.singleton ch))) = String.mk cs := by
  intro cs
  induction cs with
  | nil => intro _; rfl
  | cons c cs ih =>
    intro hreg
    obtain ⟨i, h1, h2⟩ := hreg c (List.mem_cons_self _ _)
    rw [List.map_cons, decode_cons]
    have hgid : v.get_id (String.singleton c) = i := by
      simp only [Vocabulary.get_id_opt] at h1
      simp [Vocabulary.get_id, h1]
    have hidText : idText v i = String.singleton c := by simp [idText, h2]
    rw [hgid, hidText, ih (fun c2 hc2 => hreg c2 (List.mem_cons_of_mem _ hc2))]
    exact str_mk_append [c] cs

/-! ## C1: lossless round trip on in-vocabulary text -/

/-- C1: for every vocabulary produced by `train` and every string whose
characters all occurred in the training corpus, decoding the encoding of the
string returns it exactly. -/
theorem encode_decode_roundtrip (pretokens : List String) (target : Nat)
    (s : String) (h : ∀ c ∈ s.data, ∃ p ∈ pretokens, c ∈ p.data) :
    decode (train pretokens target) (encode (train pretokens target) s) = s := by
  by_cases hs : s.data.isEmpty
  · have hd : s.data = [] := by
      cases hd2 : s.data with
      | nil => rfl
      | cons a l => rw [hd2] at hs; simp at hs
    rw [show encode (train pretokens target) s = [] from by rw [encode, if_pos hs],
      decode_nil, ← str_mk_data s, hd]
  · rw [show encode (train pretokens target) s
        = (train pretokens target).pairs.foldl
            (fun ids p => encode_apply_merge p.left p.right p.id ids)
            (s.data.map (fun ch => (train pretokens target).get_id
              (String.singleton ch))) from by rw [encode, if_neg hs]]
    rw [decode_foldl_merges (train pretokens target) (train pretokens target).pairs
      (pairsGood_text _ (train_invariants pretokens target).2.1)]
    rw [decode_map_chars (train pretokens target) s.data
      (fun c hc => train_char_registered pretokens target c (h c hc)),
      str_mk_data s]

/-- Witness for C1: round trip of `"ba"` through a vocabulary trained on
`["ab"]` (both characters occurred in the corpus). -/
theorem encode_decode_roundtrip_witness :
    decode (train ["ab"] 10) (encode (train ["ab"] 10) "ba") = "ba" :=
  encode_decode_roundtrip ["ab"] 10 "ba" (by decide)

/-! ## Save/load round trip machinery (C2) -/

theorem flatMap_map_g {α β γ : Type} (l : List α) (f : α → β) (g : β → List γ) :
    (l.map f).flatMap g = l.flatMap (fun x => g (f x)) := by
  induction l with
  | nil => rfl
  | cons x xs ih => simp [ih]

theorem read_string_write_string (t : String) (rest : List Nat)
    (hlen : (utf8Encode t).length ≤ 8 * 1024 * 1024) :
    read_string (write_string t ++ rest) = .ok (t, rest) := by
  have h1 : readU32 (u32Bytes (utf8Encode t).length ++ (utf8Encode t ++ rest))
      = some ((utf8Encode t).length, utf8Encode t ++ rest) :=
    u32_roundtrip_lt _ _ (by omega)
  rw [write_string, List.append_assoc]
  simp only [read_string, h1]
  rw [if_neg (by omega), if_neg (by simp only [List.length_append]; omega),
    List.take_left, utf8Decode_encode, List.drop_left]

theorem readTokens_ok : ∀ (toks : List String) (v : Vocabulary) (rest : List Nat),
    (∀ t ∈ toks, (utf8Encode t).length ≤ 8 * 1024 * 1024) →
    readTokens toks.length v (toks.flatMap write_string ++ rest)
      = .ok (toks.foldl (fun v t => (v.add_token t).1) v, rest) := by
  intro toks
  induction toks with
  | nil => intro v rest _; rfl
  | cons t ts ih =>
    intro v rest hall
    rw [List.flatMap_cons, List.append_assoc]
    show readTokens (ts.length + 1) v
      (write_string t ++ (ts.flatMap write_string ++ rest)) = _
    simp only [readTokens,
      read_string_write_string t _ (hall t (List.mem_cons_self _ _))]
    exact ih _ rest (fun u hu => hall u (List.mem_cons_of_mem _ hu))

theorem readPairs_ok : ∀ (prs : List BpePair) (v : Vocabulary) (rest : List Nat),
    (∀ p ∈ prs, p.left < 4294967296 ∧ p.right < 4294967296 ∧ p.id < 4294967296) →
    readPairs prs.length v
      (prs.flatMap (fun p => u32Bytes p.left ++ u32Bytes p.right ++ u32Bytes p.id)
        ++ rest)
      = .ok (prs.foldl (fun v p => v.add_pair p.left p.right p.id) v, rest) := by
  intro prs
  induction prs with
  | nil => intro v rest _; rfl
  | cons p ps ih =>
    intro v rest hall
    obtain ⟨hl, hr, hid⟩ := hall p (List.mem_cons_self _ _)
    rw [List.flatMap_cons]
    simp only [List.append_assoc]
    show readPairs (ps.length + 1) v (u32Bytes p.left ++ (u32Bytes p.right ++
      (u32Bytes p.id ++ (ps.flatMap _ ++ rest)))) = _
    simp only [readPairs, u32_roundtrip_lt _ _ hl, u32_roundtrip_lt _ _ hr,
      u32_roundtrip_lt _ _ hid]
    exact ih _ rest (fun q hq => hall q (List.mem_cons_of_mem _ hq))

theorem foldl_add_token_fresh : ∀ (toks : List String) (v : Vocabulary),
    toks.Nodup → (∀ t ∈ toks, v.get_id_opt t = none) →
    (toks.foldl (fun v t => (v.add_token t).1) v).id_to_token
      = v.id_to_token ++ toks ∧
    (toks.foldl (fun v t => (v.add_token t).1) v).pairs = v.pairs := by
  intro toks
  induction toks with
  | nil => intro v _ _; exact ⟨(List.append_nil _).symm, rfl⟩
  | cons t ts ih =>
    intro v hnd hfr
    have hft : v.get_id_opt t = none := hfr t (List.mem_cons_self _ _)
    have hfr2 : ∀ u ∈ ts, (v.add_token t).1.get_id_opt u = none := by
      intro u hu
      have hne : ¬ u = t := by
        intro he
        subst he
        exact (List.nodup_cons.mp hnd).1 hu
      rw [get_id_opt_fresh v t hft, if_neg hne]
      exact hfr u (List.mem_cons_of_mem _ hu)
    obtain ⟨ha, hb⟩ := ih (v.add_token t).1 (List.nodup_cons.mp hnd).2 hfr2
    constructor
    · rw [List.foldl_cons, ha, (add_token_fresh v t hft).2.1, List.append_assoc]
      rfl
    · rw [List.foldl_cons, hb, add_token_pairs]

theorem foldl_add_pair_spec : ∀ (prs : List BpePair) (v : Vocabulary),
    (prs.foldl (fun v p => v.add_pair p.left p.right p.id) v).pairs
      = v.pairs ++ prs ∧
    (prs.foldl (fun v p => v.add_pair p.left p.right p.id) v).id_to_token
      = v.id_to_token := by
  intro prs
  induction prs with
  | nil => intro v; exact ⟨(List.append_nil _).symm, rfl⟩
  | cons p ps ih =>
    intro v
    obtain ⟨ha, hb⟩ := ih (v.add_pair p.left p.right p.id)
    constructor
    · rw [List.foldl_cons, ha]
      show (v.pairs ++ [⟨p.left, p.right, p.id⟩]) ++ ps = v.pairs ++ p :: ps
      rw [List.append_assoc]
      rfl
    · rw [List.foldl_cons, hb]
      rfl

theorem WellFormed_id_nodup (v : Vocabulary) (hv : WellFormed v) :
    v.id_to_token.Nodup := by
  rw [List.nodup_iff_injective_get]
  intro i j hij
  have hgi : v.get_token i.val = some (v.id_to_token.get i) := by
    rw [Vocabulary.get_token, List.getElem?_eq_getElem i.isLt]
    rfl
  have hgj : v.get_token j.val = some (v.id_to_token.get j) := by
    rw [Vocabulary.get_token, List.getElem?_eq_getElem j.isLt]
    rfl
  have h1 := hv.2.2.2 i.val i.isLt
  rw [hgi] at h1
  simp only [Option.some_bind] at h1
  have h2 := hv.2.2.2 j.val j.isLt
  rw [hgj] at h2
  simp only [Option.some_bind] at h2
  rw [hij] at h1
  exact Fin.ext (Option.some.inj (h2.symm.trans h1)).symm

theorem range_map_get_token (v : Vocabulary) :
    (List.range v.len).map (fun id => (v.get_token id).getD "") = v.id_to_token := by
  apply List.ext_getElem
  · simp [Vocabulary.len]
  · intro i h1 h2
    simp only [List.getElem_map, List.getElem_range]
    rw [Vocabulary.get_token, List.getElem?_eq_getElem h2]
    rfl

theorem tokBytes_eq (v : Vocabulary) :
    tokBytes v = v.id_to_token.flatMap write_string := by
  rw [tokBytes, ← range_map_get_token v, flatMap_map_g]

theorem load_save_structure (v : Vocabulary) (hlen : v.len < 4294967296)
    (hpc : v.pairs_count < 4294967296) :
    load (save v) =
      (match readTokens v.len Vocabulary.emptyVocab (tokBytes v ++ pairBytes v) with
       | .error e => .error e
       | .ok (w, rest4) =>
         match readPairs v.pairs_count w rest4 with
         | .error e => .error e
         | .ok (w2, _) => .ok w2) := by
  have hs : save v = 66 :: 80 :: 69 :: 0 :: (u32Bytes 1 ++ (u32Bytes v.len ++
      (u32Bytes v.pairs_count ++ (tokBytes v ++ pairBytes v)))) := by
    rw [save]
    simp [List.append_assoc]
  rw [hs]
  simp only [load, u32_roundtrip_lt 1 _ (by norm_num),
    u32_roundtrip_lt v.len _ hlen, u32_roundtrip_lt v.pairs_count _ hpc]
  simp

/-! ## C2: save/load round trip -/

/-- C2 (amended): for every vocabulary whose two maps are mutually
consistent (true of every vocabulary built through the public API), whose
size, rule count and rule fields fit in `u32`, and whose every token is at
most 8 MiB of UTF-8, `load` succeeds on the saved bytes and reproduces an
observably identical vocabulary: same `len()`, same `pairs_count()`, the
same token text at every id, and the same rule triples in the same order. -/
theorem save_load_roundtrip (v : Vocabulary) (hv : WellFormed v)
    (hlen : v.len < 2 ^ 32) (hpc : v.pairs_count < 2 ^ 32)
    (htok : ∀ t ∈ v.id_to_token, (utf8Encode t).length ≤ 8 * 1024 * 1024)
    (hpr : ∀ p ∈ v.pairs, p.left < 2 ^ 32 ∧ p.right < 2 ^ 32 ∧ p.id < 2 ^ 32) :
    ∃ w, load (save v) = .ok w ∧ w.len = v.len ∧
      w.pairs_count = v.pairs_count ∧
      (∀ id, w.get_token id = v.get_token id) ∧ w.pairs = v.pairs := by
  have h32 : (2 : Nat) ^ 32 = 4294967296 := by norm_num
  rw [h32] at hlen hpc
  simp only [h32] at hpr
  have hrt := readTokens_ok v.id_to_token Vocabulary.emptyVocab (pairBytes v) htok
  have hfold := foldl_add_token_fresh v.id_to_token Vocabulary.emptyVocab
    (WellFormed_id_nodup v hv) (fun t _ => rfl)
  have hrp := readPairs_ok v.pairs
    (v.id_to_token.foldl (fun v t => (v.add_token t).1) Vocabulary.emptyVocab) [] hpr
  have hfold2 := foldl_add_pair_spec v.pairs
    (v.id_to_token.foldl (fun v t => (v.add_token t).1) Vocabulary.emptyVocab)
  have hid : (v.pairs.foldl (fun v p => v.add_pair p.left p.right p.id)
      (v.id_to_token.foldl (fun v t => (v.add_token t).1)
        Vocabulary.emptyVocab)).id_to_token = v.id_to_token := by
    rw [hfold2.2, hfold.1]
    rfl
  have hps : (v.pairs.foldl (fun v p => v.add_pair p.left p.right p.id)
      (v.id_to_token.foldl (fun v t => (v.add_token t).1)
        Vocabulary.emptyVocab)).pairs = v.pairs := by
    rw [hfold2.1, hfold.2]
    rfl
  refine ⟨v.pairs.foldl (fun v p => v.add_pair p.left p.right p.id)
    (v.id_to_token.foldl (fun v t => (v.add_token t).1) Vocabulary.emptyVocab),
    ?_, ?_, ?_, ?_, hps⟩
  · rw [load_save_structure v hlen hpc, tokBytes_eq,
      show v.len = v.id_to_token.length from rfl, hrt]
    dsimp only
    rw [show v.pairs_count = v.pairs.length from rfl,
      show pairBytes v = v.pairs.flatMap
        (fun p => u32Bytes p.left ++ u32Bytes p.right ++ u32Bytes p.id) ++ []
        from (List.append_nil _).symm, hrp]
  · rw [Vocabulary.len, Vocabulary.len, hid]
  · rw [Vocabulary.pairs_count, Vocabulary.pairs_count, hps]
  · intro id
    rw [Vocabulary.get_token, Vocabulary.get_token, hid]

/-- Witness for C2's amended theorem: a small API-built vocabulary with one
regular token and one rule. -/
theorem save_load_roundtrip_witness :
    ∃ w, load (save ((Vocabulary.new.add_token "ab").1.add_pair 4 4 4)) = .ok w ∧
      w.len = ((Vocabulary.new.add_token "ab").1.add_pair 4 4 4).len ∧
      w.pairs_count = ((Vocabulary.new.add_token "ab").1.add_pair 4 4 4).pairs_count ∧
      (∀ id, w.get_token id
        = ((Vocabulary.new.add_token "ab").1.add_pair 4 4 4).get_token id) ∧
      w.pairs = ((Vocabulary.new.add_token "ab").1.add_pair 4 4 4).pairs :=
  save_load_roundtrip ((Vocabulary.new.add_token "ab").1.add_pair 4 4 4)
    (by decide) (by decide) (by decide)
    (by decide) (by decide)

/-- A token of 8 MiB + 1 bytes of UTF-8. -/
def hugeToken : String :=
  String.mk (List.replicate 8388609 'a')

/-- An API-built vocabulary holding a token longer than 8 MiB: `save`
writes it happily, `load` rejects it. -/
def hugeVocab : Vocabulary :=
  (Vocabulary.new.add_token hugeToken).1

theorem ne_of_data_length {a b : String} (h : a.data.length ≠ b.data.length) :
    a ≠ b :=
  fun he => h (congrArg (fun s => s.data.length) he)

theorem hugeToken_data_len : hugeToken.data.length = 8388609 :=
  List.length_replicate 8388609 'a'

theorem hugeVocab_fresh : Vocabulary.new.get_id_opt hugeToken = none := by
  have hne : ∀ w : String, w.data.length = 5 → hugeToken ≠ w := by
    intro w hw
    apply ne_of_data_length
    rw [hugeToken_data_len, hw]
    norm_num
  show lookupStr Vocabulary.new.token_to_id hugeToken = none
  rw [show Vocabulary.new.token_to_id
      = [("[EOS]", 3), ("[BOS]", 2), ("[PAD]", 1), ("[UNK]", 0)] from rfl]
  simp only [lookupStr]
  rw [if_neg (hne "[EOS]" (by decide)), if_neg (hne "[BOS]" (by decide)),
    if_neg (hne "[PAD]" (by decide)), if_neg (hne "[UNK]" (by decide))]

theorem utf8_flat_replicate_a : ∀ n : Nat,
    ((List.replicate n 'a').flatMap utf8EncodeChar).length = n := by
  intro n
  induction n with
  | zero => rfl
  | succ n ih =>
    rw [List.replicate_succ, List.flatMap_cons, List.length_append, ih,
      show utf8EncodeChar 'a' = [97] from by decide]
    simp only [List.length_cons, List.length_nil]
    omega

theorem hugeVocab_id_to_token : hugeVocab.id_to_token
    = ["[UNK]", "[PAD]", "[BOS]", "[EOS]", hugeToken] := by
  rw [hugeVocab, (add_token_fresh Vocabulary.new hugeToken hugeVocab_fresh).2.1]
  rfl

theorem hugeVocab_pairs : hugeVocab.pairs = [] := by
  rw [hugeVocab, (add_token_fresh Vocabulary.new hugeToken hugeVocab_fresh).2.2.1]
  rfl

theorem readTokens_step (n : Nat) (v : Vocabulary) (t : String) (rest : List Nat)
    (h : (utf8Encode t).length ≤ 8 * 1024 * 1024) :
    readTokens (n + 1) v (write_string t ++ rest)
      = readTokens n (v.add_token t).1 rest := by
  simp only [readTokens, read_string_write_string t rest h]

/-- C2 counterexample: the claim fails as stated.  `hugeVocab` is built with
two public calls (`new`, `add_token` of an 8 MiB + 1 token); `save` succeeds
(it writes any token unchecked), yet `load` of the written bytes fails with
the token-too-long error instead of reproducing the vocabulary. -/
theorem save_load_not_roundtrip :
    load (save hugeVocab) = .error (.tokenTooLong 8388609) := by
  have hlen5 : hugeVocab.len < 4294967296 := by
    rw [Vocabulary.len, hugeVocab_id_to_token]
    norm_num
  have hpc0 : hugeVocab.pairs_count < 4294967296 := by
    rw [Vocabulary.pairs_count, hugeVocab_pairs]
    norm_num
  have hL : (utf8Encode hugeToken).length = 8388609 := utf8_flat_replicate_a 8388609
  have herr : read_string (write_string hugeToken ++ []) =
      .error (.tokenTooLong 8388609) := by
    rw [write_string, hL, List.append_assoc]
    simp only [read_string, u32_roundtrip_lt 8388609 _ (by norm_num)]
    rw [if_pos (by norm_num)]
  have hrt : readTokens hugeVocab.len Vocabulary.emptyVocab
      (tokBytes hugeVocab ++ pairBytes hugeVocab)
      = .error (.tokenTooLong 8388609) := by
    rw [tokBytes_eq, hugeVocab_id_to_token,
      show pairBytes hugeVocab = [] from by rw [pairBytes, hugeVocab_pairs]; rfl,
      List.append_nil,
      show hugeVocab.len = 4 + 1 from by
        rw [Vocabulary.len, hugeVocab_id_to_token]; rfl]
    rw [List.flatMap_cons, readTokens_step 4 _ _ _ (by decide)]
    rw [show (4 : Nat) = 3 + 1 from rfl, List.flatMap_cons,
      readTokens_step 3 _ _ _ (by decide)]
    rw [show (3 : Nat) = 2 + 1 from rfl, List.flatMap_cons,
      readTokens_step 2 _ _ _ (by decide)]
    rw [show (2 : Nat) = 1 + 1 from rfl, List.flatMap_cons,
      readTokens_step 1 _ _ _ (by decide)]
    rw [show (1 : Nat) = 0 + 1 from rfl, List.flatMap_cons, List.flatMap_nil]
    rw [readTokens, herr]
  rw [load_save_structure hugeVocab hlen5 hpc0, hrt]

/-- Witness for C7: the invariant machinery applied at concrete inputs. -/
theorem vocabulary_bidirectional_invariant_witness :
    WellFormed (Vocabulary.new.add_token "hello").1 ∧
    Vocabulary.new.add_token "[PAD]" = (Vocabulary.new, 1) :=
  ⟨(vocabulary_bidirectional_invariant Vocabulary.new "hello" 0 1 2
      (by decide)).2.2.2.1,
   (vocabulary_bidirectional_invariant Vocabulary.new "[PAD]" 0 1 2
      (by decide)).2.1 1 (by decide)⟩

end Wvec
